import Mathlib

/-!
Verification development for `dictionary.py`: a trie-backed word dictionary
(class `Trie`, class `Dictionary`) and a Scrabble-style board engine
(class `Board`).  The Python code is shallowly embedded: Python strings are
`List Char`, Python `dict` children maps are association lists in insertion
order, Python list indexing (with negative-index wrap-around and
`IndexError`) is modelled by `pyIdx`/`pyCell`, and any Python exception is
modelled by an `Option`-valued result (`none` = the call raised).

The file is organised as: all definitions first (embedding of the source,
then the specification-side predicates and the concrete instances used by
the theorems), then all lemmas and claim theorems.
-/

set_option maxHeartbeats 1600000

namespace DictPy

/-! ## Python primitive semantics -/

/-- Resolve a Python list index against a list of length `n`:
`0 ≤ i < n` reads position `i`; `-n ≤ i < 0` wraps to `n + i`;
anything else raises `IndexError`. -/
def pyResolve (n : Nat) (i : Int) : Option Nat :=
  if 0 ≤ i ∧ i < (n : Int) then some i.toNat
  else if -(n : Int) ≤ i ∧ i < 0 then some (i + (n : Int)).toNat
  else none

/-- Python `l[i]` (read). `none` models `IndexError`. -/
def pyIdx (l : List α) (i : Int) : Option α :=
  (pyResolve l.length i).bind fun k => l.get? k

/-- Python `l[i] = a` (write). `none` models `IndexError`. -/
def pyListSet (l : List α) (i : Int) (a : α) : Option (List α) :=
  (pyResolve l.length i).map fun k => l.set k a

/-- Python `str.upper` on one character (the program only works with
ASCII letters, so only `a..z` are affected). -/
def pyUpperChar (c : Char) : Char :=
  if 97 ≤ c.toNat ∧ c.toNat ≤ 122 then Char.ofNat (c.toNat - 32) else c

/-- Python `word.upper()`. -/
def pyUpper (w : List Char) : List Char := w.map pyUpperChar

/-- Python `str.lower` on one character (ASCII). -/
def pyLowerChar (c : Char) : Char :=
  if 65 ≤ c.toNat ∧ c.toNat ≤ 90 then Char.ofNat (c.toNat + 32) else c

/-- Python `string.lower()`. -/
def pyLower (w : List Char) : List Char := w.map pyLowerChar

/-- Python substring test `t in s`. -/
def strIn (t : List Char) : List Char → Bool
  | [] => t.isEmpty
  | c :: s => t.isPrefixOf (c :: s) || strIn t s

/-- Python `s[-n:]`: for `n = 0` this is the whole string `s[0:]`,
otherwise the last `min n (length s)` characters. -/
def pySliceFromNeg (s : List Char) (n : Nat) : List Char :=
  if n = 0 then s else s.drop (s.length - n)

/-! ## class TrieNode / class Trie -/

/-- `class TrieNode`: `children` is the insertion-ordered child map,
`defn` the stored definition, `isEnd` the end-of-word marker
(`self.end` in the source; `end` is reserved in Lean). -/
inductive TrieNode where
  | mk (children : List (Char × TrieNode)) (defn : List Char) (isEnd : Bool)

def TrieNode.children : TrieNode → List (Char × TrieNode)
  | ⟨c, _, _⟩ => c

def TrieNode.defn : TrieNode → List Char
  | ⟨_, d, _⟩ => d

def TrieNode.isEnd : TrieNode → Bool
  | ⟨_, _, e⟩ => e

/-- `TrieNode()`: fresh node with no children, empty definition, not terminal. -/
def emptyNode : TrieNode := ⟨[], [], false⟩

/-- Python `char in node.children` / `node.children[char]` (lookup in the
insertion-ordered dict). -/
def findChild : List (Char × TrieNode) → Char → Option TrieNode
  | [], _ => none
  | (c, t) :: rest, ch => if c = ch then some t else findChild rest ch

/-- Python `node.children[char] = t`: overwrite in place if the key exists,
otherwise append (dict insertion order). -/
def setChild : List (Char × TrieNode) → Char → TrieNode → List (Char × TrieNode)
  | [], ch, t => [(ch, t)]
  | (c, t0) :: rest, ch, t =>
      if c = ch then (c, t) :: rest else (c, t0) :: setChild rest ch t

/-- `Trie.insert(word, defn="")`: walk/create one child per character,
then store the definition and set the terminal flag on the final node. -/
def TrieNode.insert : TrieNode → List Char → List Char → TrieNode
  | n, [], d => ⟨n.children, d, true⟩
  | n, ch :: w, d =>
      let child := (findChild n.children ch).getD emptyNode
      ⟨setChild n.children ch (child.insert w d), n.defn, n.isEnd⟩

/-- `Trie.build_trie(words)` (no length limit, empty definitions). -/
def buildTrie (words : List (List Char)) : TrieNode :=
  words.foldl (fun t w => t.insert w []) emptyNode

/-- `Trie.build_trie_defs(words, defs)`, with the two parallel lists
zipped into one list of pairs. -/
def buildTrieDefs (pairs : List (List Char × List Char)) : TrieNode :=
  pairs.foldl (fun t p => t.insert p.1 p.2) emptyNode

/-- Loop body of `Trie.has_prefix`: `temp` is the accumulated `temp_word`,
`rem` the characters still to process, `pre` the full prefix argument.
Each iteration appends a character, first compares `temp_word == prefix`
(returning `True` on equality *before* consulting that character's edge),
then follows the child edge or returns `False`. -/
def hasPrefGo (pre : List Char) : TrieNode → List Char → List Char → Bool
  | _, _, [] => false
  | node, temp, ch :: rem =>
      let temp' := temp ++ [ch]
      if temp' = pre then true
      else
        match findChild node.children ch with
        | some child => hasPrefGo pre child temp' rem
        | none => false

/-- `Trie.has_prefix(prefix)`. -/
def hasPref (t : TrieNode) (pre : List Char) : Bool :=
  hasPrefGo pre t [] pre

/-- `Trie.search(word)`: follow the path, return the final node's
terminal flag; a missing edge gives `False`. -/
def TrieNode.search : TrieNode → List Char → Bool
  | n, [] => n.isEnd
  | n, ch :: w =>
      match findChild n.children ch with
      | some child => child.search w
      | none => false

/-- `Trie.get_defn(word)`: follow the path and return the final node's
`defn` field; the source returns the Python literal `False` on a missing
edge, modelled here as `none` (so `some d` models returning the string `d`). -/
def TrieNode.getDefn : TrieNode → List Char → Option (List Char)
  | n, [] => some n.defn
  | n, ch :: w =>
      match findChild n.children ch with
      | some child => child.getDefn w
      | none => none

/-- `Trie.walk_trie(node, word, word_list)` run on a children map: for each
child in dict order, append `word + char` when the child is terminal, then
recurse into the child; returns the words appended to `word_list`. -/
def walkList : List (Char × TrieNode) → List Char → List (List Char)
  | [], _ => []
  | (c, child) :: rest, w =>
      let w2 := w ++ [c]
      (if child.isEnd then [w2] else []) ++ walkList child.children w2 ++ walkList rest w
termination_by l _ => sizeOf l
decreasing_by
  all_goals simp_wf
  all_goals (rcases child with ⟨cs, d, e⟩; simp [TrieNode.children]; omega)

/-- `Trie.walk_trie_defs(node, word, word_list, def_list)` run on a children
map; the two parallel output lists are modelled as one list of
(word, definition) pairs, appended in the same order. -/
def walkListDefs : List (Char × TrieNode) → List Char → List (List Char × List Char)
  | [], _ => []
  | (c, child) :: rest, w =>
      let w2 := w ++ [c]
      (if child.isEnd then [(w2, child.defn)] else []) ++
        walkListDefs child.children w2 ++ walkListDefs rest w
termination_by l _ => sizeOf l
decreasing_by
  all_goals simp_wf
  all_goals (rcases child with ⟨cs, d, e⟩; simp [TrieNode.children]; omega)

/-- The walk down the `partial_word` path at the start of
`Trie.auto_complete`: returns the node at the end of the path, or `none`
when an edge is missing (the source then returns the empty word list). -/
def descend : TrieNode → List Char → Option TrieNode
  | n, [] => some n
  | n, ch :: w =>
      match findChild n.children ch with
      | some child => descend child w
      | none => none

/-- `Trie.auto_complete(partial_word, node_start)`, with `node_start` the
given node (`contains_partial` always passes the root). -/
def autoComplete (t : TrieNode) (partialWord : List Char) : List (List Char) :=
  match descend t partialWord with
  | none => []
  | some n => (if n.isEnd then [partialWord] else []) ++ walkList n.children partialWord

/-- The `for char in _node.children` loop of the inner function
`_contains_partial` of `Trie.contains_partial`.  The Boolean argument is
the module-global `RETRACE_WORD` flag, threaded through the recursion
(each call receives its current value and the result carries its final
value); `p` is the local `_prefix`, `acc` the shared `_word_list`.
Per iteration: if the flag is set, drop the last character of the prefix
and clear the flag; append the current child's character; if the prefix
now ends in the token, extend the word list via `auto_complete` from the
root and `break`; otherwise recurse into the child if it has children
(afterwards setting the flag when the local prefix has length 1), or set
the flag if the child is a leaf. -/
def cpLoop (token : List Char) (root : TrieNode) :
    List (Char × TrieNode) → List Char → Bool → List (List Char) →
      Bool × List (List Char)
  | [], _, flag, acc => (flag, acc)
  | (ch, child) :: rest, p, flag, acc =>
      let p0 := if flag then p.dropLast else p
      let p1 := p0 ++ [ch]
      if pySliceFromNeg p1 token.length = token then
        (false, acc ++ autoComplete root p1)
      else if child.children.isEmpty then
        cpLoop token root rest p1 true acc
      else
        let r := cpLoop token root child.children p1 false acc
        let flag2 := if p1.length = 1 then true else r.1
        cpLoop token root rest p1 flag2 r.2
termination_by l _ _ _ => sizeOf l
decreasing_by
  all_goals simp_wf
  all_goals (rcases child with ⟨cs, d, e⟩; simp [TrieNode.children]; omega)

/-- `Trie.contains_partial(token)`: run the recursive helper from the root
with empty prefix, empty word list, and `RETRACE_WORD` in its module-initial
`False` state; return the collected word list. -/
def containsPart (t : TrieNode) (token : List Char) : List (List Char) :=
  (cpLoop token t t.children [] false []).2

/-! ## class Dictionary (query layer) -/

/-- `class Dictionary`: wraps one trie root (`self.__dct`) and the
`use_defs` flag; file loading is out of scope, so a `Dictionary` value is
just its post-construction state. -/
structure Dictionary where
  dct : TrieNode
  useDefs : Bool

/-- `Dictionary.is_word(word)`: uppercase, then `Trie.search`. -/
def Dictionary.isWord (d : Dictionary) (w : List Char) : Bool :=
  d.dct.search (pyUpper w)

/-- `Dictionary.get_def(word)`: uppercase, then `Trie.get_defn`
(`none` models the Python `False` sentinel). -/
def Dictionary.getDef (d : Dictionary) (w : List Char) : Option (List Char) :=
  d.dct.getDefn (pyUpper w)

/-- `Dictionary.get_words_with_x_in_def(string, include_def=True)`:
collect all (word, definition) pairs with `walk_trie_defs`, lowercase the
search string, and keep the pairs whose definition contains it
(Python `string in def_list[index]`; note the definition itself is *not*
lowercased by the source). -/
def Dictionary.getWordsWithXInDef (d : Dictionary) (s : List Char) :
    List (List Char × List Char) :=
  let pairs := walkListDefs d.dct.children []
  let sLow := pyLower s
  pairs.filter fun p => strIn sLow p.2

/-- `_find_permutations(word)`: all `n!` orderings of the word's letter
positions (`itertools.permutations`). -/
def findPermutations (w : List Char) : List (List Char) :=
  w.permutations

/-- `Dictionary.find_anagrams(word)`: keep the permutations that are in the
trie, then deduplicate (`list(set(word_list))`; the Python set's iteration
order is unspecified, so only the result *set* is meaningful). -/
def findAnagrams (t : TrieNode) (w : List Char) : List (List Char) :=
  ((findPermutations w).filter fun p => t.search p).dedup

/-! ## class Board -/

/-- A grid of tiles: `none` is an empty cell (Python `None`). -/
abbrev Grid := List (List (Option Char))

/-- One multiplier tile: the source stores strings such as `"3W"` and
`"2L"`; a tile is modelled by its parsed magnitude and whether it is a
word multiplier (`"W"`) rather than a letter multiplier (`"L"`). -/
structure Mult where
  mag : Nat
  isWordMult : Bool
deriving DecidableEq

/-- A grid of multiplier tiles. -/
abbrev MGrid := List (List Mult)

/-- `INVALID_PLAY = -1`. -/
def INVALID_PLAY : Int := -1

/-- The two play directions `DOWN` and `RIGHT` (strings in the source;
the claims only concern these two values). -/
inductive Dir where
  | DOWN
  | RIGHT
deriving DecidableEq

/-- `LETTER_SCORING`: the scores of A..Z followed by the blank tile. -/
def LETTER_SCORING : List Int :=
  [1, 3, 3, 2, 1, 4, 2, 4, 1,
   8, 5, 1, 3, 1, 1, 3, 10, 1,
   1, 1, 1, 4, 4, 8, 4, 10,
   0]

/-- `LETTER_DICTIONARY[letter]`; `none` models a Python `KeyError`. -/
def letterIndex (c : Char) : Option Nat :=
  (([('A', 0), ('B', 1), ('C', 2), ('D', 3), ('E', 4), ('F', 5), ('G', 6),
     ('H', 7), ('I', 8), ('J', 9), ('K', 10), ('L', 11), ('M', 12),
     ('N', 13), ('O', 14), ('P', 15), ('Q', 16), ('R', 17), ('S', 18),
     ('T', 19), ('U', 20), ('V', 21), ('W', 22), ('X', 23), ('Y', 24),
     ('Z', 25), ('?', 26)]) : List (Char × Nat)).lookup c

/-- `Dictionary.get_word_score(word, letter_scoring)`: sum of the letters'
scores; `none` models the `KeyError`/`IndexError` on a letter outside the
tables. -/
def getWordScore (scoring : List Int) (w : List Char) : Option Int :=
  w.foldlM (fun acc ch => do
    let i ← letterIndex ch
    let s ← scoring.get? i
    pure (acc + s)) 0

/-- `_create_2d_list(total_rows, total_cols)` with the default `None` fill. -/
def create2dList (rows cols : Nat) : Grid :=
  List.replicate rows (List.replicate cols none)

/-- Abbreviations for the multiplier tiles appearing in the default layout. -/
def W3 : Mult := ⟨3, true⟩

def W2 : Mult := ⟨2, true⟩

def L1 : Mult := ⟨1, false⟩

def L2 : Mult := ⟨2, false⟩

def L3 : Mult := ⟨3, false⟩

/-- `SCRABBLE_BOARD_MULTIPLIERS`: the default 15×15 layout. -/
def SCRABBLE_BOARD_MULTIPLIERS : MGrid :=
  [[W3, L1, L1, L2, L1, L1, L1, W3, L1, L1, L1, L2, L1, L1, W3],
   [L1, W2, L1, L1, L1, L3, L1, L1, L1, L3, L1, L1, L1, W2, L1],
   [L1, L1, W2, L1, L1, L1, L2, L1, L2, L1, L1, L1, W2, L1, L1],
   [L2, L1, L1, W2, L1, L1, L1, L2, L1, L1, L1, W2, L1, L1, L2],
   [L1, L1, L1, L1, W2, L1, L1, L1, L1, L1, W2, L1, L1, L1, L1],
   [L1, L3, L1, L1, L1, L3, L1, L1, L1, L3, L1, L1, L1, L3, L1],
   [L1, L1, L2, L1, L1, L1, L2, L1, L2, L1, L1, L1, L2, L1, L1],
   [W3, L1, L1, L2, L1, L1, L1, W2, L1, L1, L1, L2, L1, L1, W3],
   [L1, L1, L2, L1, L1, L1, L2, L1, L2, L1, L1, L1, L2, L1, L1],
   [L1, L3, L1, L1, L1, L3, L1, L1, L1, L3, L1, L1, L1, L3, L1],
   [L1, L1, L1, L1, W2, L1, L1, L1, L1, L1, W2, L1, L1, L1, L1],
   [L2, L1, L1, W2, L1, L1, L1, L2, L1, L1, L1, W2, L1, L1, L2],
   [L1, L1, W2, L1, L1, L1, L2, L1, L2, L1, L1, L1, W2, L1, L1],
   [L1, W2, L1, L1, L1, L3, L1, L1, L1, L3, L1, L1, L1, W2, L1],
   [W3, L1, L1, L2, L1, L1, L1, W3, L1, L1, L1, L2, L1, L1, W3]]

/-- `_set_board(board, board_multipliers)`; `none` models the `IndexError`
on reading row 0 of an empty multiplier grid.  A caller-supplied board is
returned as-is: the source performs no dimension check. -/
def setBoardFn : Option Grid → Option MGrid → Option Grid
  | none, none => do
      let r0 ← pyIdx SCRABBLE_BOARD_MULTIPLIERS 0
      pure (create2dList SCRABBLE_BOARD_MULTIPLIERS.length r0.length)
  | none, some m => do
      let r0 ← pyIdx m 0
      pure (create2dList m.length r0.length)
  | some b, _ => pure b

/-- `_set_board_multipliers(board_multipliers)`. -/
def setBoardMults : Option MGrid → MGrid
  | none => SCRABBLE_BOARD_MULTIPLIERS
  | some m => m

/-- `_set_letter_scoring(letter_scoring)`. -/
def setLetterScoring : Option (List Int) → List Int
  | none => LETTER_SCORING
  | some s => s

/-- `class Board` state: tile grid, multiplier grid, scoring table and the
undo record `self.last_play`.  The wrapped dictionary and the tile bag are
not consulted by any embedded operation. -/
structure Board where
  board : Grid
  multipliers : MGrid
  letterScoring : List Int
  lastPlay : List (Int × Int)

/-- `Board.__init__(game_dct, board, board_multipliers, letter_dist,
letter_scoring)`; the dictionary and letter-distribution arguments do not
affect the embedded state. -/
def boardInit (b : Option Grid) (m : Option MGrid) (scoring : Option (List Int)) :
    Option Board := do
  let g ← setBoardFn b m
  pure ⟨g, setBoardMults m, setLetterScoring scoring, []⟩

/-- Python `self.board[i][j]` (two-step read). -/
def pyCell (b : Grid) (i j : Int) : Option (Option Char) := do
  let row ← pyIdx b i
  pyIdx row j

/-- Python `self.board[i][j] = v` (read row `i`, then write index `j`). -/
def pySet2 (b : Grid) (i j : Int) (v : Option Char) : Option Grid := do
  let row ← pyIdx b i
  let row2 ← pyListSet row j v
  pyListSet b i row2

/-- `Board._is_valid_coord(row, col)`; `self.board[0]` is only consulted
when the row bound already holds (Python's short-circuit `and`), so the
`headD` default is never the deciding value. -/
def isValidCoord (b : Grid) (r c : Int) : Bool :=
  decide (0 ≤ r ∧ r < (b.length : Int)) &&
    decide (0 ≤ c ∧ c < ((b.headD []).length : Int))

/-- `Board.is_empty()`. -/
def isEmptyG (b : Grid) : Bool :=
  b.all fun row => row.all fun tile => tile.isNone

/-- `Board.get_multiplier(row, col)`: the parsed magnitude, negated for a
word multiplier; `none` models an `IndexError` on a multiplier grid that
does not cover the coordinate. -/
def getMultiplier (m : MGrid) (r c : Int) : Option Int := do
  let row ← pyIdx m r
  let t ← pyIdx row c
  pure (if t.isWordMult then -(t.mag : Int) else (t.mag : Int))

/-- The guarded occupied-cell test used throughout `_is_touching_word`:
`self._is_valid_coord(r, c) and self.board[r][c] is not None` (the read
only happens at valid coordinates, so the `getD` default is never the
deciding value). -/
def occAt (b : Grid) (r c : Int) : Bool :=
  isValidCoord b r c && ((pyCell b r c).getD none).isSome

/-- The row length seen when walking along row `r` (termination measure
for the cross-word walks). -/
def rowLenI (b : Grid) (r : Int) : Nat :=
  ((pyIdx b r).map List.length).getD 0

/-- `_get_cross_word_score_piece` with `new_col_delta = -1`: walk left
from column `j` of row `r`, summing plain letter scores of contiguous
non-empty cells; an empty cell stops the walk, and a read past the
wrapped index range propagates `IndexError`. -/
def walkLeft (b : Grid) (scoring : List Int) (r : Int) (j : Int) : Option Int :=
  match h : pyCell b r j with
  | none => none
  | some none => some 0
  | some (some ch) => do
      let s ← getWordScore scoring [ch]
      let rest ← walkLeft b scoring r (j - 1)
      pure (s + rest)
termination_by (j + (rowLenI b r : Int) + 1).toNat
decreasing_by
  obtain ⟨row, hrow, hj⟩ := Option.bind_eq_some.mp h
  obtain ⟨k, hres, _⟩ := Option.bind_eq_some.mp hj
  unfold pyResolve at hres
  have hlen : rowLenI b r = row.length := by simp [rowLenI, hrow]
  split_ifs at hres <;> simp_wf <;> omega

/-- `_get_cross_word_score_piece` with `new_col_delta = +1`. -/
def walkRightW (b : Grid) (scoring : List Int) (r : Int) (j : Int) : Option Int :=
  match h : pyCell b r j with
  | none => none
  | some none => some 0
  | some (some ch) => do
      let s ← getWordScore scoring [ch]
      let rest ← walkRightW b scoring r (j + 1)
      pure (s + rest)
termination_by ((rowLenI b r : Int) - j).toNat
decreasing_by
  obtain ⟨row, hrow, hj⟩ := Option.bind_eq_some.mp h
  obtain ⟨k, hres, _⟩ := Option.bind_eq_some.mp hj
  unfold pyResolve at hres
  have hlen : rowLenI b r = row.length := by simp [rowLenI, hrow]
  split_ifs at hres <;> simp_wf <;> omega

/-- `_get_cross_word_score_piece` with `new_row_delta = -1`. -/
def walkUp (b : Grid) (scoring : List Int) (c : Int) (i : Int) : Option Int :=
  match h : pyCell b i c with
  | none => none
  | some none => some 0
  | some (some ch) => do
      let s ← getWordScore scoring [ch]
      let rest ← walkUp b scoring c (i - 1)
      pure (s + rest)
termination_by (i + (b.length : Int) + 1).toNat
decreasing_by
  obtain ⟨row, hrow, _⟩ := Option.bind_eq_some.mp h
  obtain ⟨k, hres, _⟩ := Option.bind_eq_some.mp hrow
  unfold pyResolve at hres
  split_ifs at hres <;> simp_wf <;> omega

/-- `_get_cross_word_score_piece` with `new_row_delta = +1`. -/
def walkDown (b : Grid) (scoring : List Int) (c : Int) (i : Int) : Option Int :=
  match h : pyCell b i c with
  | none => none
  | some none => some 0
  | some (some ch) => do
      let s ← getWordScore scoring [ch]
      let rest ← walkDown b scoring c (i + 1)
      pure (s + rest)
termination_by ((b.length : Int) - i).toNat
decreasing_by
  obtain ⟨row, hrow, _⟩ := Option.bind_eq_some.mp h
  obtain ⟨k, hres, _⟩ := Option.bind_eq_some.mp hrow
  unfold pyResolve at hres
  split_ifs at hres <;> simp_wf <;> omega

/-- `Board._get_cross_word_score(letter, row, col, direction, multiplier)`:
sum the two perpendicular pieces, then add the connecting letter's score
(scaled by a non-negative letter multiplier), finally scaling the whole
sum by the magnitude of a word multiplier. -/
def getCrossWordScore (b : Grid) (scoring : List Int) (letter : Char)
    (r c : Int) (dir : Dir) (m : Int) : Option Int := do
  let base ←
    match dir with
    | .DOWN => do
        let p1 ← walkLeft b scoring r (c - 1)
        let p2 ← walkRightW b scoring r (c + 1)
        pure (p1 + p2)
    | .RIGHT => do
        let p1 ← walkUp b scoring c (r - 1)
        let p2 ← walkDown b scoring c (r + 1)
        pure (p1 + p2)
  let s ← getWordScore scoring [letter]
  if 0 ≤ m then pure (base + s * m)
  else pure ((base + s) * (-m))

/-- `Board._is_touching_word(row, col, direction)`: the current cell is
occupied, or a perpendicular neighbour is occupied, or the cell before the
word is occupied (considered only when `len(self.last_play) == 0`), or the
cell after is occupied. -/
def isTouchingWord (b : Grid) (lastPlay : List (Int × Int)) (r c : Int) (dir : Dir) :
    Option Bool := do
  let cur ← pyCell b r c
  if cur.isSome then pure true
  else
    let perp :=
      match dir with
      | .DOWN => occAt b r (c - 1) || occAt b r (c + 1)
      | .RIGHT => occAt b (r - 1) c || occAt b (r + 1) c
    if perp then pure true
    else
      let before :=
        match dir with
        | .DOWN => occAt b (r - 1) c
        | .RIGHT => occAt b r (c - 1)
      if before && lastPlay.isEmpty then pure true
      else
        let after :=
          match dir with
          | .DOWN => occAt b (r + 1) c
          | .RIGHT => occAt b r (c + 1)
        if after then pure true else pure false

/-- The mutable state of the `for letter in word` loop of `Board.set_word`:
the grid, the undo record, the `valid_play` / `touching_word` /
`play_through_center` flags, the running `score`, the accumulated
`cross_scores` and the running `total_multiplier`. -/
structure SWState where
  bd : Grid
  lp : List (Int × Int)
  valid : Bool
  touching : Bool
  center : Bool
  score : Int
  cross : Int
  totmul : Int

/-- The guarded touching-rule check of one `set_word` iteration:
`if not touching_word and not is_first_play and self._is_touching_word(...)`
(when the guard fails the flag is left unchanged). -/
def touchCheck (b : Grid) (lp : List (Int × Int)) (touching firstPlay : Bool)
    (row col : Int) (dir : Dir) : Option Bool :=
  if touching = false ∧ firstPlay = false then isTouchingWord b lp row col dir
  else pure touching

/-- The unguarded perpendicular-neighbour test of `set_word` (lines
1780–1787 of the source): for `DOWN` read `board[row][col-1]` and — only
if that is empty — `board[row][col+1]` (Python's short-circuit `or`);
symmetrically for `RIGHT`.  The reads carry no bounds check, so they can
wrap to the opposite edge or raise `IndexError`. -/
def perpCheck (bd : Grid) (row col : Int) (dir : Dir) : Option Bool :=
  match dir with
  | .DOWN => do
      let a ← pyCell bd row (col - 1)
      if a.isSome then pure true
      else do
        let a2 ← pyCell bd row (col + 1)
        pure a2.isSome
  | .RIGHT => do
      let a ← pyCell bd (row - 1) col
      if a.isSome then pure true
      else do
        let a2 ← pyCell bd (row + 1) col
        pure a2.isSome

/-- Accumulate the cross-word score when the perpendicular test fired. -/
def crossAccum (bd : Grid) (scoring : List Int) (ch : Char) (row col : Int)
    (dir : Dir) (m : Int) (cross : Int) (hasPerp : Bool) : Option Int :=
  if hasPerp then do
    let cs ← getCrossWordScore bd scoring ch row col dir m
    pure (cross + cs)
  else pure cross

/-- One iteration of the `set_word` loop at letter `ch`, coordinate
(`row`, `col`): check the centre cell and the touching rule, then place /
reuse / reject the tile, updating score, cross-scores and the word
multiplier product.  Coordinate advancement is done by the caller. -/
def setWordStep (mults : MGrid) (scoring : List Int) (firstPlay : Bool)
    (cr cc : Int) (dir : Dir) (ch : Char) (row col : Int) (st : SWState) :
    Option SWState := do
  if isValidCoord st.bd row col then
    let center' := if firstPlay ∧ row = cr ∧ col = cc then true else st.center
    let touch' ← touchCheck st.bd st.lp st.touching firstPlay row col dir
    let cur ← pyCell st.bd row col
    match cur with
    | none => do
        let bd' ← pySet2 st.bd row col (some ch)
        let lp' := st.lp ++ [(row, col)]
        let m ← getMultiplier mults row col
        let s ← getWordScore scoring [ch]
        let score' := if 0 ≤ m then st.score + s * m else st.score + s
        let wm : Int := if 0 ≤ m then 1 else -m
        let hasPerp ← perpCheck bd' row col dir
        let cross' ← crossAccum bd' scoring ch row col dir m st.cross hasPerp
        pure ⟨bd', lp', st.valid, touch', center', score', cross', st.totmul * wm⟩
    | some c2 =>
        if c2 = ch then do
          let s ← getWordScore scoring [ch]
          pure ⟨st.bd, st.lp, st.valid, touch', center', st.score + s, st.cross,
            st.totmul * 1⟩
        else
          pure ⟨st.bd, st.lp, false, touch', center', st.score, st.cross, st.totmul * 1⟩
  else
    pure { st with valid := false, totmul := st.totmul * 1 }

/-- The `for letter in word` loop of `Board.set_word`: run one step per
letter, advancing the row (for `DOWN`) or the column (for `RIGHT`). -/
def setWordLoop (mults : MGrid) (scoring : List Int) (firstPlay : Bool)
    (cr cc : Int) (dir : Dir) :
    List Char → Int → Int → SWState → Option SWState
  | [], _, _, st => pure st
  | ch :: rest, row, col, st => do
      let st' ← setWordStep mults scoring firstPlay cr cc dir ch row col st
      match dir with
      | .DOWN => setWordLoop mults scoring firstPlay cr cc dir rest (row + 1) col st'
      | .RIGHT => setWordLoop mults scoring firstPlay cr cc dir rest row (col + 1) st'

/-- `Board.set_word(word, row, col, direction)`: uppercase the word, clear
the undo record, record whether the board was empty, compute the centre
cell, run the letter loop, then apply the word-multiplier product and add
the cross-scores; returns the mutated board together with
`(total_score, all_valid)`.  `none` models a Python exception escaping
the call. -/
def setWord (B : Board) (word : List Char) (row col : Int) (dir : Dir) :
    Option (Board × Int × Bool) := do
  let w := pyUpper word
  let firstPlay := isEmptyG B.board
  let r0 ← pyIdx B.board 0
  let cr : Int := ((B.board.length / 2 : Nat) : Int)
  let cc : Int := ((r0.length / 2 : Nat) : Int)
  let st0 : SWState := ⟨B.board, [], true, false, false, 0, 0, 1⟩
  let st ← setWordLoop B.multipliers B.letterScoring firstPlay cr cc dir w row col st0
  let score := st.score * st.totmul
  let total := score + st.cross
  let allValid := st.valid && (!firstPlay || st.center) && (firstPlay || st.touching)
  pure (⟨st.bd, B.multipliers, B.letterScoring, st.lp⟩, total, allValid)

/-- `Board.undo_play()`: blank every recorded coordinate, clear the record. -/
def undoPlay (B : Board) : Option Board := do
  let b' ← B.lastPlay.foldlM (fun g p => pySet2 g p.1 p.2 none) B.board
  pure ⟨b', B.multipliers, B.letterScoring, []⟩

/-- `Board.play_word(word, row, col, direction)`: play via `set_word`;
on an invalid play undo it and return `INVALID_PLAY`. -/
def playWord (B : Board) (word : List Char) (row col : Int) (dir : Dir) :
    Option (Board × Int) := do
  let res ← setWord B word row col dir
  if res.2.2 then pure (res.1, res.2.1)
  else do
    let B2 ← undoPlay res.1
    pure (B2, INVALID_PLAY)

/-! ## Specification-side definitions and concrete instances -/

/-- The definition the dictionary is expected to store for `w` after the
insertions `pairs` (later duplicates overwrite earlier ones): the second
component of the last pair whose word is `w`. -/
def lastDefFor (pairs : List (List Char × List Char)) (w : List Char) : List Char :=
  ((pairs.reverse.find? fun q => q.1 == w).map Prod.snd).getD []

/-- Well-formedness of built tries: every reachable non-terminal node
carries the empty definition. -/
inductive WfDefs : TrieNode → Prop where
  | mk (n : TrieNode) : (n.isEnd = false → n.defn = []) →
      (∀ p ∈ n.children, WfDefs p.2) → WfDefs n

/-- Claim C4 uses the trie built from the single word `QAT`. -/
def qatTrie : TrieNode := buildTrie [['Q', 'A', 'T']]

/-- The trie built by inserting `CA` then `BC` (root children in order C, B). -/
def caBcTrie : TrieNode := buildTrie [['C', 'A'], ['B', 'C']]

/-- The trie built by inserting `BC` then `CA` (root children in order B, C). -/
def bcCaTrie : TrieNode := buildTrie [['B', 'C'], ['C', 'A']]

/-- A trie storing only the word `CAT` (case-sensitivity exhibit for C10). -/
def catTrie : TrieNode := buildTrie [['C', 'A', 'T']]

/-- A dictionary whose single entry is the word `A` with definition `CAT`
(upper-case definition text; used by claim C7). -/
def catDefDict : Dictionary :=
  ⟨buildTrieDefs [(['A'], ['C', 'A', 'T'])], true⟩

/-- The trie storing the words `STOP` and `POTS` (claim C9 witness). -/
def stopTrie : TrieNode := buildTrie [['S', 'T', 'O', 'P'], ['P', 'O', 'T', 'S']]

/-- The insertion list for the C6 witness: `CAT` defined as `FELINE`. -/
def catPairs : List (List Char × List Char) :=
  [(['C', 'A', 'T'], ['F', 'E', 'L', 'I', 'N', 'E'])]

/-- The grid coordinate of the word's `k`-th letter, starting at
(`r`, `c`) and going in direction `dir`. -/
def posAt (r c : Int) (dir : Dir) (k : Nat) : Int × Int :=
  match dir with
  | .DOWN => (r + k, c)
  | .RIGHT => (r, c + k)

/-- Total cell read at a coordinate (used in specification statements at
valid coordinates only, where the `getD` default is never consulted). -/
def cellB (b : Grid) (r c : Int) : Option Char :=
  (pyCell b r c).getD none

/-- Claim language: every letter of the word lands on-grid on a cell that
is empty or already holds that same letter. -/
def footprintOK (b : Grid) (w : List Char) (r c : Int) (dir : Dir) : Prop :=
  ∀ k < w.length,
    isValidCoord b (posAt r c dir k).1 (posAt r c dir k).2 = true ∧
    (cellB b (posAt r c dir k).1 (posAt r c dir k).2 = none ∨
      cellB b (posAt r c dir k).1 (posAt r c dir k).2 = some (w.getD k ' '))

/-- Claim language: the letter at `p` overlaps an occupied cell of `b` or
is orthogonally adjacent to one. -/
def adjOrOverlap (b : Grid) (p : Int × Int) : Prop :=
  occAt b p.1 p.2 = true ∨ occAt b (p.1 - 1) p.2 = true ∨
    occAt b (p.1 + 1) p.2 = true ∨ occAt b p.1 (p.2 - 1) = true ∨
    occAt b p.1 (p.2 + 1) = true

/-- The board's designated centre cell `(⌊R/2⌋, ⌊C/2⌋)`. -/
def centerOf (b : Grid) : Int × Int :=
  (((b.length / 2 : Nat) : Int), (((b.headD []).length / 2 : Nat) : Int))

/-- Claim language for C1: the legality condition of a placement. -/
def idealAccept (B : Board) (word : List Char) (r c : Int) (dir : Dir) : Prop :=
  footprintOK B.board (pyUpper word) r c dir ∧
  (isEmptyG B.board = true →
      ∃ k < (pyUpper word).length, posAt r c dir k = centerOf B.board) ∧
  (isEmptyG B.board = false →
      ∃ k < (pyUpper word).length, adjOrOverlap B.board (posAt r c dir k))

/-- "Identical dimensions" for a tile grid and a multiplier grid. -/
def sameDims (g : Grid) (m : MGrid) : Prop :=
  g.length = m.length ∧ ∀ i, (g.getD i []).length = (m.getD i []).length

/-- A 3×3 multiplier grid of plain `1L` tiles. -/
def mults3 : MGrid :=
  [[L1, L1, L1], [L1, L1, L1], [L1, L1, L1]]

/-- An empty 3×3 board. -/
def emptyB3 : Board := ⟨create2dList 3 3, mults3, LETTER_SCORING, []⟩

/-- A 3×3 board with a single pre-existing tile `X` at (0, 2) — the right
edge of the top row (claim C3). -/
def xB3 : Board :=
  ⟨[[none, none, some 'X'], [none, none, none], [none, none, none]],
   mults3, LETTER_SCORING, []⟩

/-- A 3×3 board with a single pre-existing tile `B` at (0, 0)
(claim C2 witness: a floating play elsewhere must be rejected). -/
def bB3 : Board :=
  ⟨[[some 'B', none, none], [none, none, none], [none, none, none]],
   mults3, LETTER_SCORING, []⟩

/-- A 2×2 multiplier grid (dimension-mismatch instance for claim C8). -/
def mults2 : MGrid := [[L1, L1], [L1, L1]]

/-! ### Proof-side descriptions of the `set_word` loop state -/

/-- Total write at natural coordinates (proof-side description of the
grid mutation performed by `pySet2`). -/
def setCellN (b : Grid) (a bn : Nat) (v : Option Char) : Grid :=
  b.set a ((b.getD a []).set bn v)

/-- Total read at natural coordinates. -/
def cellN (b : Grid) (a bn : Nat) : Option Char :=
  (b.getD a []).getD bn none

/-- Claim language, per letter: letter `j` lands on a valid coordinate
whose cell is empty or already holds that letter. -/
def stepOK (B0 : Grid) (wu : List Char) (r c : Int) (dir : Dir) (j : Nat) : Prop :=
  isValidCoord B0 (posAt r c dir j).1 (posAt r c dir j).2 = true ∧
  (cellB B0 (posAt r c dir j).1 (posAt r c dir j).2 = none ∨
    cellB B0 (posAt r c dir j).1 (posAt r c dir j).2 = some (wu.getD j ' '))

/-- Letter `j` sits at a valid coordinate and overlaps or neighbours an
occupied cell of the initial board. -/
def touchedAt (B0 : Grid) (r c : Int) (dir : Dir) (j : Nat) : Prop :=
  isValidCoord B0 (posAt r c dir j).1 (posAt r c dir j).2 = true ∧
  adjOrOverlap B0 (posAt r c dir j)

/-- Letter `j` sits at a valid coordinate equal to the centre cell. -/
def centerAt (B0 : Grid) (r c cr cc : Int) (dir : Dir) (j : Nat) : Prop :=
  isValidCoord B0 (posAt r c dir j).1 (posAt r c dir j).2 = true ∧
  posAt r c dir j = (cr, cc)

/-- The loop invariant of `set_word` after `k` processed letters:
shape preservation, characterisation of the recorded writes, and the
meaning of the three flags relative to the initial board `B0`. -/
structure SWInv (B0 : Grid) (wu : List Char) (r c cr cc : Int) (dir : Dir)
    (firstPlay : Bool) (k : Nat) (st : SWState) : Prop where
  hlen : st.bd.length = B0.length
  hrow : ∀ i, (st.bd.getD i []).length = (B0.getD i []).length
  hlp : ∀ p ∈ st.lp, ∃ j, j < k ∧ p = posAt r c dir j ∧ ∃ a b2 : Nat,
      p = ((a : Int), (b2 : Int)) ∧ a < B0.length ∧ b2 < (B0.getD a []).length ∧
      cellN B0 a b2 = none
  hcells : ∀ a b2 : Nat, ((a : Int), (b2 : Int)) ∉ st.lp → cellN st.bd a b2 = cellN B0 a b2
  hnd : st.lp.Nodup
  hvalid : st.valid = true ↔ ∀ j, j < k → stepOK B0 wu r c dir j
  hcenter : st.center = true ↔ firstPlay = true ∧ ∃ j, j < k ∧ centerAt B0 r c cr cc dir j
  htouchT : firstPlay = true → st.touching = false
  htouchF : firstPlay = false → (st.touching = true ↔ ∃ j, j < k ∧ touchedAt B0 r c dir j)

end DictPy

namespace DictPy

/-! ## Lemmas about the trie embedding -/

@[simp] theorem TrieNode.children_mk (c d e) : TrieNode.children ⟨c, d, e⟩ = c := rfl

@[simp] theorem TrieNode.defn_mk (c d e) : TrieNode.defn ⟨c, d, e⟩ = d := rfl

@[simp] theorem TrieNode.isEnd_mk (c d e) : TrieNode.isEnd ⟨c, d, e⟩ = e := rfl

theorem findChild_setChild_self (cs : List (Char × TrieNode)) (ch : Char) (t : TrieNode) :
    findChild (setChild cs ch t) ch = some t := by
  induction cs with
  | nil => simp [setChild, findChild]
  | cons p rest ih =>
      obtain ⟨c, t0⟩ := p
      by_cases h : c = ch
      · simp [setChild, findChild, h]
      · simp [setChild, findChild, h, ih]

theorem findChild_setChild_ne (cs : List (Char × TrieNode)) (ch ch' : Char) (t : TrieNode)
    (h : ch' ≠ ch) : findChild (setChild cs ch t) ch' = findChild cs ch' := by
  induction cs with
  | nil =>
      simp only [setChild, findChild]
      rw [if_neg (fun hh => h hh.symm)]
  | cons p rest ih =>
      obtain ⟨c, t0⟩ := p
      simp only [setChild]
      by_cases hc : c = ch
      · rw [if_pos hc]
        have hne : ¬ c = ch' := by rw [hc]; exact fun hh => h hh.symm
        simp only [findChild]
        rw [if_neg hne, if_neg hne]
      · rw [if_neg hc]
        simp only [findChild]
        by_cases hc' : c = ch'
        · rw [if_pos hc', if_pos hc']
        · rw [if_neg hc', if_neg hc', ih]

theorem mem_setChild (cs : List (Char × TrieNode)) (ch : Char) (t : TrieNode) :
    ∀ p ∈ setChild cs ch t, p.2 = t ∨ p ∈ cs := by
  induction cs with
  | nil => intro p hp; simp [setChild] at hp; simp [hp]
  | cons q rest ih =>
      obtain ⟨c, t0⟩ := q
      intro p hp
      by_cases h : c = ch
      · simp [setChild, h] at hp
        rcases hp with h1 | h1
        · left; simp [h1]
        · right; simp [h1]
      · simp [setChild, h] at hp
        rcases hp with h1 | h1
        · right; simp [h1]
        · rcases ih p h1 with h2 | h2
          · exact Or.inl h2
          · right; simp [h2]

theorem findChild_mem (cs : List (Char × TrieNode)) (ch : Char) (t : TrieNode)
    (h : findChild cs ch = some t) : (ch, t) ∈ cs := by
  induction cs with
  | nil => simp [findChild] at h
  | cons q rest ih =>
      obtain ⟨c, t0⟩ := q
      by_cases hc : c = ch
      · subst hc
        simp [findChild] at h
        simp [h]
      · simp [findChild, hc] at h
        simp [ih h]

theorem search_emptyNode (w : List Char) : emptyNode.search w = false := by
  cases w <;> simp [TrieNode.search, emptyNode, findChild]

/-- Inserting `w` makes `w` a stored word with definition `d`. -/
theorem search_getDefn_insert_self (w d : List Char) :
    ∀ t : TrieNode, (t.insert w d).search w = true ∧ (t.insert w d).getDefn w = some d := by
  induction w with
  | nil => intro t; simp [TrieNode.insert, TrieNode.search, TrieNode.getDefn]
  | cons ch rest ih =>
      intro t
      simp only [TrieNode.insert, TrieNode.search, TrieNode.getDefn,
        TrieNode.children_mk, findChild_setChild_self]
      exact ih _

/-- Inserting a different word does not change `search`. -/
theorem search_insert_ne (w : List Char) :
    ∀ (w' d : List Char) (t : TrieNode), w ≠ w' →
      (t.insert w' d).search w = t.search w := by
  induction w with
  | nil =>
      intro w' d t hne
      cases w' with
      | nil => exact absurd rfl hne
      | cons ch' rest' => simp [TrieNode.insert, TrieNode.search]
  | cons ch rest ih =>
      intro w' d t hne
      cases w' with
      | nil => simp [TrieNode.insert, TrieNode.search]
      | cons ch' rest' =>
          by_cases hc : ch = ch'
          · subst hc
            have hr : rest ≠ rest' := fun h => hne (by rw [h])
            simp only [TrieNode.insert, TrieNode.search, TrieNode.children_mk,
              findChild_setChild_self]
            cases hf : findChild t.children ch with
            | some c0 => simp [hf, ih rest' d c0 hr]
            | none =>
                simp [hf, ih rest' d emptyNode hr, search_emptyNode]
          · simp only [TrieNode.insert, TrieNode.search, TrieNode.children_mk,
              findChild_setChild_ne _ _ _ _ hc]

/-- Inserting a different word preserves an existing stored definition. -/
theorem getDefn_insert_ne (w : List Char) :
    ∀ (w' d dv : List Char) (t : TrieNode), w ≠ w' → t.getDefn w = some dv →
      (t.insert w' d).getDefn w = some dv := by
  induction w with
  | nil =>
      intro w' d dv t hne hd
      cases w' with
      | nil => exact absurd rfl hne
      | cons ch' rest' =>
          simp [TrieNode.getDefn] at hd
          simp [TrieNode.insert, TrieNode.getDefn, hd]
  | cons ch rest ih =>
      intro w' d dv t hne hd
      simp only [TrieNode.getDefn] at hd
      cases hf : findChild t.children ch with
      | none => simp [hf] at hd
      | some c0 =>
          rw [hf] at hd
          cases w' with
          | nil => simpa [TrieNode.insert, TrieNode.getDefn, hf] using hd
          | cons ch' rest' =>
              by_cases hc : ch = ch'
              · subst hc
                have hr : rest ≠ rest' := fun h => hne (by rw [h])
                simp only [TrieNode.insert, TrieNode.getDefn, TrieNode.children_mk,
                  findChild_setChild_self, hf, Option.getD_some]
                exact ih rest' d dv c0 hr hd
              · simp only [TrieNode.insert, TrieNode.getDefn, TrieNode.children_mk,
                  findChild_setChild_ne _ _ _ _ hc, hf]
                exact hd

/-- Correspondence between a built trie and its insertion list:
the last inserted definition for a word is found, and words never
inserted are not successfully searched. -/
theorem build_corr (pairs : List (List Char × List Char)) (w : List Char) :
    (∀ p, pairs.reverse.find? (fun q => q.1 == w) = some p →
        (buildTrieDefs pairs).search w = true ∧ (buildTrieDefs pairs).getDefn w = some p.2) ∧
    (pairs.reverse.find? (fun q => q.1 == w) = none →
        (buildTrieDefs pairs).search w = false) := by
  induction pairs using List.reverseRecOn with
  | nil =>
      constructor
      · intro p hp; simp at hp
      · intro _; exact search_emptyNode w
  | append_singleton rest q ih =>
      have hbuild : buildTrieDefs (rest ++ [q]) = (buildTrieDefs rest).insert q.1 q.2 := by
        simp [buildTrieDefs]
      have hrev : (rest ++ [q]).reverse = q :: rest.reverse := by simp
      by_cases hq : q.1 = w
      · constructor
        · intro p hp
          rw [hrev] at hp
          simp [List.find?, hq] at hp
          subst hp
          rw [hbuild, ← hq]
          exact search_getDefn_insert_self q.1 q.2 (buildTrieDefs rest)
        · intro hnone
          rw [hrev] at hnone
          simp [List.find?, hq] at hnone
      · have hwne : w ≠ q.1 := fun h => hq h.symm
        have hcons : (q :: rest.reverse).find? (fun q => q.1 == w) =
            rest.reverse.find? (fun q => q.1 == w) :=
          List.find?_cons_of_neg _ (by simp [hq])
        constructor
        · intro p hp
          rw [hrev, hcons] at hp
          obtain ⟨hs, hd⟩ := ih.1 p hp
          rw [hbuild]
          exact ⟨by rw [search_insert_ne w q.1 q.2 _ hwne]; exact hs,
            getDefn_insert_ne w q.1 q.2 p.2 _ hwne hd⟩
        · intro hnone
          rw [hrev, hcons] at hnone
          rw [hbuild, search_insert_ne w q.1 q.2 _ hwne]
          exact ih.2 hnone

theorem wfDefs_emptyNode : WfDefs emptyNode := by
  refine WfDefs.mk _ (fun _ => rfl) ?_
  intro p hp
  simp [emptyNode] at hp

theorem wfDefs_insert (w : List Char) :
    ∀ (d : List Char) (t : TrieNode), WfDefs t → WfDefs (t.insert w d) := by
  induction w with
  | nil =>
      intro d t ht
      cases ht with
      | mk _ h1 h2 =>
          exact WfDefs.mk _ (by simp [TrieNode.insert]) (by simpa [TrieNode.insert] using h2)
  | cons ch rest ih =>
      intro d t ht
      cases ht with
      | mk _ h1 h2 =>
          refine WfDefs.mk _ (by simpa [TrieNode.insert] using h1) ?_
          intro p hp
          simp only [TrieNode.insert, TrieNode.children_mk] at hp
          rcases mem_setChild _ _ _ p hp with h3 | h3
          · rw [h3]
            cases hf : findChild t.children ch with
            | some c0 =>
                simp only [hf, Option.getD_some]
                exact ih d c0 (h2 _ (findChild_mem _ _ _ hf))
            | none =>
                simp only [hf, Option.getD_none]
                exact ih d emptyNode wfDefs_emptyNode
          · exact h2 p h3

theorem wfDefs_build (pairs : List (List Char × List Char)) :
    WfDefs (buildTrieDefs pairs) := by
  induction pairs using List.reverseRecOn with
  | nil => exact wfDefs_emptyNode
  | append_singleton rest q ih =>
      have hbuild : buildTrieDefs (rest ++ [q]) = (buildTrieDefs rest).insert q.1 q.2 := by
        simp [buildTrieDefs]
      rw [hbuild]
      exact wfDefs_insert q.1 q.2 _ ih

/-- In a well-formed trie, a failed search yields a false-like `get_defn`
result: either the Python `False` sentinel or the empty string. -/
theorem wf_getDefn_falsy (w : List Char) :
    ∀ t : TrieNode, WfDefs t → t.search w = false →
      t.getDefn w = none ∨ t.getDefn w = some [] := by
  induction w with
  | nil =>
      intro t ht hs
      cases ht with
      | mk _ h1 h2 =>
          right
          simp only [TrieNode.getDefn]
          rw [h1 (by simpa [TrieNode.search] using hs)]
  | cons ch rest ih =>
      intro t ht hs
      cases ht with
      | mk _ h1 h2 =>
          cases hf : findChild t.children ch with
          | none => left; simp [TrieNode.getDefn, hf]
          | some c0 =>
              have hs0 : c0.search rest = false := by
                simpa [TrieNode.search, hf] using hs
              have := ih c0 (h2 _ (findChild_mem _ _ _ hf)) hs0
              simpa [TrieNode.getDefn, hf] using this

theorem toNat_ofNat_small (n : Nat) (h : n < 55296) : (Char.ofNat n).toNat = n := by
  simp only [Char.ofNat, Nat.isValidChar, Char.toNat, Char.ofNatAux]
  rw [dif_pos (Or.inl h)]
  rfl

theorem pyUpperChar_idem (c : Char) : pyUpperChar (pyUpperChar c) = pyUpperChar c := by
  unfold pyUpperChar
  by_cases h : 97 ≤ c.toNat ∧ c.toNat ≤ 122
  · rw [if_pos h]
    have ht : (Char.ofNat (c.toNat - 32)).toNat = c.toNat - 32 :=
      toNat_ofNat_small _ (by omega)
    rw [if_neg (by rw [ht]; omega)]
  · rw [if_neg h, if_neg h]

theorem pyUpper_idem (w : List Char) : pyUpper (pyUpper w) = pyUpper w := by
  induction w with
  | nil => rfl
  | cons c cs ih =>
      simp only [pyUpper, List.map_cons] at *
      rw [pyUpperChar_idem]
      exact congrArg _ ih

/-- Membership description of `find_anagrams`. -/
theorem mem_findAnagrams (t : TrieNode) (w x : List Char) :
    x ∈ findAnagrams t w ↔ x.Perm w ∧ t.search x = true := by
  simp [findAnagrams, findPermutations, List.mem_dedup, List.mem_filter,
    List.mem_permutations]

/-! ## Claim theorems -/

/-- Claim C4: `has_prefix` compares `temp_word == prefix` *before* following
the final character's edge, so it answers `True` whenever the path for all
but the last character exists, regardless of the last character, and it
answers `False` on the empty prefix.  On the dictionary holding only the
word `QAT`: `has_prefix("QZ")` and `has_prefix("Z")` both return `True`
although no stored word starts with `QZ` or `Z` (contradicting the claim
and the function's own docstring), and `has_prefix("")` returns `False`
although the claim requires `True` for a non-empty dictionary. -/
theorem claim_C4 :
    hasPref qatTrie ['Q', 'Z'] = true ∧
    hasPref qatTrie ['Z'] = true ∧
    hasPref qatTrie [] = false ∧
    qatTrie.search ['Q', 'A', 'T'] = true ∧
    (¬ ['Q', 'Z'].IsPrefix ['Q', 'A', 'T']) ∧
    (¬ ['Z'].IsPrefix ['Q', 'A', 'T']) := by
  refine ⟨rfl, rfl, rfl, rfl, ?_, ?_⟩ <;> decide

/-- Claim C5: `contains_partial` stops the child loop (`break`) as soon as
one child's prefix ends in the token, so sibling subtrees that also contain
the token are never visited.  Both tries below store exactly the words
`{CA, BC}`; searching for the token `C` returns only `[CA]` when the root's
children are enumerated in order C, B, but `[BC, CA]` in order B, C.  So the
result misses the stored word `BC`, which contains `C` as a substring
(contradicting the claim and the function's own docstring), and the result
set depends on the child-enumeration order. -/
theorem claim_C5 :
    containsPart caBcTrie ['C'] = [['C', 'A']] ∧
    containsPart bcCaTrie ['C'] = [['B', 'C'], ['C', 'A']] ∧
    (walkList caBcTrie.children []).toFinset = (walkList bcCaTrie.children []).toFinset ∧
    caBcTrie.search ['B', 'C'] = true ∧
    strIn ['C'] ['B', 'C'] = true ∧
    ['B', 'C'] ∉ containsPart caBcTrie ['C'] ∧
    (containsPart caBcTrie ['C']).toFinset ≠ (containsPart bcCaTrie ['C']).toFinset := by
  have h1 : containsPart caBcTrie ['C'] = [['C', 'A']] := by
    simp [containsPart, caBcTrie, buildTrie, TrieNode.insert, emptyNode, findChild, setChild,
      cpLoop, pySliceFromNeg, autoComplete, descend, walkList]
  have h2 : containsPart bcCaTrie ['C'] = [['B', 'C'], ['C', 'A']] := by
    simp [containsPart, bcCaTrie, buildTrie, TrieNode.insert, emptyNode, findChild, setChild,
      cpLoop, pySliceFromNeg, autoComplete, descend, walkList]
  refine ⟨h1, h2, ?_, rfl, rfl, ?_, ?_⟩
  · simp [caBcTrie, bcCaTrie, buildTrie, TrieNode.insert, emptyNode, findChild, setChild,
      walkList]
    decide
  · rw [h1]; decide
  · rw [h1, h2]; decide

/-- Claim C6: on a dictionary built from any insertion list, `get_defn`
returns the stored (most recently inserted) definition of every stored
word, and for every string that is not a stored word — including proper
prefixes of stored words whose path exists — it returns a false-like
sentinel: the Python literal `False` (modelled `none`) when the path is
missing, or the empty string carried by a non-terminal node. -/
theorem claim_C6 (pairs : List (List Char × List Char)) (w : List Char) :
    ((buildTrieDefs pairs).search w = true →
        (buildTrieDefs pairs).getDefn w = some (lastDefFor pairs w)) ∧
    ((buildTrieDefs pairs).search w = false →
        (buildTrieDefs pairs).getDefn w = none ∨
          (buildTrieDefs pairs).getDefn w = some []) := by
  constructor
  · intro hs
    cases hfind : pairs.reverse.find? (fun q => q.1 == w) with
    | none => rw [(build_corr pairs w).2 hfind] at hs; cases hs
    | some p =>
        have := (build_corr pairs w).1 p hfind
        rw [this.2, lastDefFor, hfind]
        rfl
  · intro hs
    exact wf_getDefn_falsy w _ (wfDefs_build pairs) hs

/-- Witness for C6 at a concrete input: the dictionary `{CAT ↦ FELINE}`
stores `CAT` with its definition, and on `CA` — whose path exists but only
as a proper prefix — `get_defn` yields a false-like result. -/
theorem claim_C6_witness :
    (buildTrieDefs catPairs).getDefn ['C', 'A', 'T'] =
        some ['F', 'E', 'L', 'I', 'N', 'E'] ∧
    ((buildTrieDefs catPairs).getDefn ['C', 'A'] = none ∨
      (buildTrieDefs catPairs).getDefn ['C', 'A'] = some []) := by
  constructor
  · have := (claim_C6 catPairs ['C', 'A', 'T']).1 (by decide)
    rw [this]
    decide
  · exact (claim_C6 catPairs ['C', 'A']).2 (by decide)

/-- Claim C7 fails on the code: the search string is lowercased but the
definition text is compared verbatim.  With the single entry
`A ↦ CAT` (upper-case definition) and search string `Cat`, the string
occurs in the definition under case-insensitive comparison, yet the pair
is not included in the result. -/
theorem claim_C7_cex :
    Dictionary.getWordsWithXInDef catDefDict ['C', 'a', 't'] = [] ∧
    strIn (pyLower ['C', 'a', 't']) (pyLower ['C', 'A', 'T']) = true ∧
    walkListDefs catDefDict.dct.children [] = [(['A'], ['C', 'A', 'T'])] := by
  refine ⟨?_, by decide, ?_⟩
  · simp [Dictionary.getWordsWithXInDef, catDefDict, buildTrieDefs, TrieNode.insert,
      emptyNode, findChild, setChild, walkListDefs, pyLower, pyLowerChar, strIn,
      List.isPrefixOf]
  · simp [catDefDict, buildTrieDefs, TrieNode.insert, emptyNode, findChild, setChild,
      walkListDefs]

/-- Claim C7, amended: a stored (word, definition) pair is included exactly
when the *lowercased* search string occurs verbatim in the (un-recased)
definition text; consequently the result is invariant under re-casing of
the search string, but not under re-casing of definitions. -/
theorem claim_C7 (d : Dictionary) (s : List Char) :
    (∀ w dfn, (w, dfn) ∈ d.getWordsWithXInDef s ↔
        (w, dfn) ∈ walkListDefs d.dct.children [] ∧ strIn (pyLower s) dfn = true) ∧
    (∀ s', pyLower s' = pyLower s →
        d.getWordsWithXInDef s' = d.getWordsWithXInDef s) := by
  constructor
  · intro w dfn
    simp [Dictionary.getWordsWithXInDef, List.mem_filter]
  · intro s' h
    simp only [Dictionary.getWordsWithXInDef, h]

/-- Witness for C7 (amended) at concrete inputs: re-casing the search
string `Cat` to `cAT` leaves the result unchanged, and the single stored
pair is included exactly when the lowercased string occurs in the raw
definition. -/
theorem claim_C7_witness :
    Dictionary.getWordsWithXInDef catDefDict ['c', 'A', 'T'] =
        Dictionary.getWordsWithXInDef catDefDict ['C', 'a', 't'] ∧
    ((['A'], ['C', 'A', 'T']) ∈ Dictionary.getWordsWithXInDef catDefDict ['C', 'a', 't'] ↔
      (['A'], ['C', 'A', 'T']) ∈ walkListDefs catDefDict.dct.children [] ∧
        strIn (pyLower ['C', 'a', 't']) ['C', 'A', 'T'] = true) := by
  exact ⟨(claim_C7 catDefDict ['C', 'a', 't']).2 ['c', 'A', 'T'] (by decide),
    (claim_C7 catDefDict ['C', 'a', 't']).1 ['A'] ['C', 'A', 'T']⟩

/-- Claim C9: every anagram returned by `find_anagrams` uses exactly the
multiset of the input word's letters, and the result set is invariant
under permuting the input word's letters. -/
theorem claim_C9 (t : TrieNode) (w : List Char) :
    (∀ x ∈ findAnagrams t w, (x : Multiset Char) = (w : Multiset Char)) ∧
    (∀ w' : List Char, (w' : Multiset Char) = (w : Multiset Char) →
        (findAnagrams t w').toFinset = (findAnagrams t w).toFinset) := by
  constructor
  · intro x hx
    exact Multiset.coe_eq_coe.mpr ((mem_findAnagrams t w x).mp hx).1
  · intro w' hperm
    have hp : w'.Perm w := Multiset.coe_eq_coe.mp hperm
    ext x
    simp only [List.mem_toFinset, mem_findAnagrams]
    constructor
    · rintro ⟨h1, h2⟩; exact ⟨h1.trans hp, h2⟩
    · rintro ⟨h1, h2⟩; exact ⟨h1.trans hp.symm, h2⟩

/-- Witness for C9 at a concrete input: over the dictionary `{STOP, POTS}`,
anagramming `POTS` and `STOP` give the same result set, and the returned
anagram `POTS` of `STOP` has exactly `STOP`'s letter multiset. -/
theorem claim_C9_witness :
    (findAnagrams stopTrie ['P', 'O', 'T', 'S']).toFinset =
        (findAnagrams stopTrie ['S', 'T', 'O', 'P']).toFinset ∧
    ((['P', 'O', 'T', 'S'] : List Char) : Multiset Char) =
        ((['S', 'T', 'O', 'P'] : List Char) : Multiset Char) := by
  refine ⟨(claim_C9 stopTrie ['S', 'T', 'O', 'P']).2 ['P', 'O', 'T', 'S'] ?_, ?_⟩ <;>
    exact Multiset.coe_eq_coe.mpr (by decide)

/-- Claim C10: `Dictionary.is_word` and `Dictionary.get_def` uppercase
their argument before consulting the trie, so each agrees with itself
applied to the uppercased form of the argument; the underlying
`Trie.search` is case-sensitive (exhibited on the trie storing `CAT`). -/
theorem claim_C10 (d : Dictionary) (s : List Char) :
    d.isWord s = d.isWord (pyUpper s) ∧
    d.getDef s = d.getDef (pyUpper s) ∧
    catTrie.search ['c', 'a', 't'] = false ∧
    catTrie.search ['C', 'A', 'T'] = true := by
  refine ⟨?_, ?_, rfl, rfl⟩
  · simp [Dictionary.isWord, pyUpper_idem]
  · simp [Dictionary.getDef, pyUpper_idem]

/-- Claim C3 fails on the code: `set_word`'s perpendicular-neighbour test
and the cross-word walk read `self.board[row][col ± 1]` (resp.
`row ± 1`) without a bounds check.  On the 3×3 board with a single tile
`X` at (0, 2): playing `A` at (0, 0) DOWN evaluates `board[0][-1]`, which
wraps to the opposite edge, sees `X`, and accumulates a phantom cross-word
score — the call returns score 10 instead of the plain letter score 1,
although the only in-grid horizontal neighbour (0, 1) is empty and
(0, -1) is not a valid coordinate.  On an empty 3×3 board, playing `A` at
(2, 0) RIGHT reads `board[3][0]`, which raises `IndexError` (the embedded
call returns `none`). -/
theorem claim_C3 :
    (setWord xB3 ['A'] 0 0 .DOWN).map (fun x => (x.2.1, x.2.2)) = some (10, false) ∧
    occAt xB3.board 0 1 = false ∧
    occAt xB3.board 1 0 = false ∧
    isValidCoord xB3.board 0 (-1) = false ∧
    cellB xB3.board 0 (-1) = some 'X' ∧
    getWordScore LETTER_SCORING ['A'] = some 1 ∧
    setWord emptyB3 ['A'] 2 0 .RIGHT = none := by
  refine ⟨?_, rfl, rfl, rfl, rfl, rfl, rfl⟩
  have hwl : walkLeft [[some 'A', none, some 'X'], [none, none, none], [none, none, none]]
      LETTER_SCORING 0 (-1) = some 8 := by
    rw [walkLeft, walkLeft]; rfl
  have hwr : walkRightW [[some 'A', none, some 'X'], [none, none, none], [none, none, none]]
      LETTER_SCORING 0 1 = some 0 := by
    rw [walkRightW]; rfl
  simp [setWord, setWordLoop, setWordStep, touchCheck, perpCheck, crossAccum, xB3,
    mults3, isEmptyG, pyIdx, pyResolve, isValidCoord, isTouchingWord, occAt, pyCell,
    pySet2, pyListSet, getMultiplier, getWordScore, letterIndex, getCrossWordScore,
    hwl, hwr, L1, pyUpper, pyUpperChar]
  rfl

/-- Claim C8 fails on the code: `_set_board` returns a caller-supplied
board as-is and `_set_board_multipliers` returns the caller-supplied
multiplier grid as-is, with no dimension comparison anywhere, so a
1×1 board together with a 2×2 multiplier grid constructs successfully
into a `Board` whose two grids disagree in both dimensions. -/
theorem claim_C8_cex :
    boardInit (some [[none]]) (some mults2) none =
      some ⟨[[none]], mults2, LETTER_SCORING, []⟩ ∧
    ([[(none : Option Char)]].length = 1 ∧ ([[(none : Option Char)]].headD []).length = 1) ∧
    (mults2.length = 2 ∧ (mults2.headD []).length = 2) := by
  exact ⟨rfl, ⟨rfl, rfl⟩, ⟨rfl, rfl⟩⟩

/-- A freshly created `rows × cols` grid has the same dimensions as any
multiplier grid with `rows` rows, all of length `cols`. -/
theorem sameDims_create2dList (rows cols : Nat) (m : MGrid)
    (hrows : m.length = rows) (hcols : ∀ row ∈ m, row.length = cols) :
    sameDims (create2dList rows cols) m := by
  constructor
  · simp [create2dList, hrows]
  · intro i
    by_cases hi : i < rows
    · have h1 : (create2dList rows cols).getD i [] = List.replicate cols none := by
        simp [create2dList, List.getD_eq_getElem?_getD, List.getElem?_replicate, hi]
      have hmem : m.getD i [] ∈ m := by
        rw [List.getD_eq_getElem?_getD]
        have := List.getElem?_eq_getElem (l := m) (n := i) (by omega)
        rw [this]
        exact List.getElem_mem _
      rw [h1, hcols _ hmem]
      simp
    · have h1 : (create2dList rows cols).getD i [] = [] := by
        rw [List.getD_eq_getElem?_getD, List.getElem?_eq_none]
        · rfl
        · simpa [create2dList] using Nat.le_of_not_lt hi
      have h2 : m.getD i [] = [] := by
        rw [List.getD_eq_getElem?_getD, List.getElem?_eq_none]
        · rfl
        · omega
      rw [h1, h2]
      rfl

/-- Claim C8, amended: Board construction performs no dimension check.
When the caller supplies both grids they are stored exactly as given (so
their dimensions may disagree and no `DimensionMismatch` is signalled);
the identical-dimensions invariant does hold whenever the caller omits
the board — the playable grid is then sized from the (rectangular)
multiplier grid — and in the all-defaults case. -/
theorem claim_C8 :
    (∀ g m s B, boardInit (some g) (some m) s = some B →
        B.board = g ∧ B.multipliers = m) ∧
    (∀ m s B, (∀ row ∈ m, row.length = (m.headD []).length) →
        boardInit none (some m) s = some B → sameDims B.board B.multipliers) ∧
    (∀ s B, boardInit none none s = some B → sameDims B.board B.multipliers) := by
  refine ⟨?_, ?_, ?_⟩
  · intro g m s B h
    simp [boardInit, setBoardFn, setBoardMults] at h
    rw [← h]
    exact ⟨rfl, rfl⟩
  · intro m s B hrect h
    match m, hrect, h with
    | [], _, h => simp [boardInit, setBoardFn, pyIdx, pyResolve] at h
    | r0 :: rest, hrect, h =>
        simp [boardInit, setBoardFn, setBoardMults, pyIdx, pyResolve] at h
        rw [← h]
        exact sameDims_create2dList _ _ _ (by simp) (by simpa using hrect)
  · intro s B h
    simp [boardInit, setBoardFn, setBoardMults, pyIdx, pyResolve,
      SCRABBLE_BOARD_MULTIPLIERS] at h
    rw [← h]
    exact sameDims_create2dList 15 15 SCRABBLE_BOARD_MULTIPLIERS (by rfl) (by decide)

/-- Witness for C8 (amended) at a concrete input: constructing with no
board and the rectangular 2×2 multiplier grid yields a board whose grid
dimensions match the multiplier grid's. -/
theorem claim_C8_witness :
    ∃ B, boardInit none (some mults2) none = some B ∧ sameDims B.board B.multipliers := by
  refine ⟨⟨create2dList 2 2, mults2, LETTER_SCORING, []⟩, rfl, ?_⟩
  exact (claim_C8.2.1 mults2 none _ (by decide) rfl)

end DictPy

namespace DictPy

/-! ### C1/C2 infrastructure -/

theorem pyIdx_natCast (l : List α) (a : Nat) : pyIdx l (a : Int) = l.get? a := by
  unfold pyIdx pyResolve
  by_cases h : a < l.length
  · rw [if_pos ⟨Int.natCast_nonneg a, by exact_mod_cast h⟩]
    simp
  · rw [if_neg, if_neg]
    · exact (List.get?_eq_none.mpr (Nat.le_of_not_lt h)).symm
    · intro hc
      omega
    · intro hc
      have := hc.2
      omega

theorem getD_eq_getElem (l : List α) (a : Nat) (d : α) (h : a < l.length) :
    l.getD a d = l[a] := by
  rw [List.getD_eq_getElem?_getD, List.getElem?_eq_getElem h]
  rfl

theorem pyCell_eq_cellN (b : Grid) (a bn : Nat)
    (h1 : a < b.length) (h2 : bn < (b.getD a []).length) :
    pyCell b (a : Int) (bn : Int) = some (cellN b a bn) := by
  have h2' : bn < b[a].length := by rwa [getD_eq_getElem _ _ _ h1] at h2
  unfold pyCell
  refine Option.bind_eq_some.mpr ⟨b[a], ?_, ?_⟩
  · rw [pyIdx_natCast, List.get?_eq_getElem?, List.getElem?_eq_getElem h1]
  · rw [pyIdx_natCast, List.get?_eq_getElem?, List.getElem?_eq_getElem h2']
    rw [cellN, getD_eq_getElem _ _ _ h1, getD_eq_getElem _ _ _ h2']

theorem pyCell_bounds (b : Grid) (a bn : Nat) (x : Option Char)
    (h : pyCell b (a : Int) (bn : Int) = some x) :
    a < b.length ∧ bn < (b.getD a []).length ∧ x = cellN b a bn := by
  simp only [pyCell, pyIdx_natCast] at h
  obtain ⟨row, hrow, hx⟩ := Option.bind_eq_some.mp h
  have ha : a < b.length := by
    by_contra hc
    rw [List.get?_eq_none.mpr (Nat.le_of_not_lt hc)] at hrow
    cases hrow
  have hb : bn < row.length := by
    by_contra hc
    rw [List.get?_eq_none.mpr (Nat.le_of_not_lt hc)] at hx
    cases hx
  have hroweq : row = b.getD a [] := by
    rw [List.get?_eq_getElem?, List.getElem?_eq_getElem ha] at hrow
    rw [getD_eq_getElem _ _ _ ha]
    exact (Option.some_inj.mp hrow).symm
  subst hroweq
  refine ⟨ha, hb, ?_⟩
  rw [List.get?_eq_getElem?, List.getElem?_eq_getElem hb] at hx
  rw [cellN, getD_eq_getElem _ _ _ hb]
  exact (Option.some_inj.mp hx).symm

theorem pyListSet_natCast (l : List α) (a : Nat) (v : α) (h : a < l.length) :
    pyListSet l (a : Int) v = some (l.set a v) := by
  unfold pyListSet pyResolve
  rw [if_pos ⟨Int.natCast_nonneg a, by exact_mod_cast h⟩]
  simp

theorem pySet2_natCast (b : Grid) (a bn : Nat) (v : Option Char)
    (h1 : a < b.length) (h2 : bn < (b.getD a []).length) :
    pySet2 b (a : Int) (bn : Int) v = some (setCellN b a bn v) := by
  have h2' : bn < b[a].length := by rwa [getD_eq_getElem _ _ _ h1] at h2
  unfold pySet2
  refine Option.bind_eq_some.mpr ⟨b[a], ?_, ?_⟩
  · rw [pyIdx_natCast, List.get?_eq_getElem?, List.getElem?_eq_getElem h1]
  · refine Option.bind_eq_some.mpr ⟨b[a].set bn v, ?_, ?_⟩
    · exact pyListSet_natCast _ _ _ h2'
    · rw [pyListSet_natCast _ _ _ (by simpa using h1)]
      rw [setCellN, getD_eq_getElem _ _ _ h1]

theorem length_setCellN (b : Grid) (a bn : Nat) (v : Option Char) :
    (setCellN b a bn v).length = b.length := by
  simp [setCellN]

theorem getD_setCellN_ne (b : Grid) (a bn : Nat) (v : Option Char) (i : Nat) (h : i ≠ a) :
    (setCellN b a bn v).getD i [] = b.getD i [] := by
  simp only [setCellN, List.getD_eq_getElem?_getD]
  rw [List.getElem?_set_ne (fun hh => h hh.symm)]

theorem getD_setCellN_self (b : Grid) (a bn : Nat) (v : Option Char) (h : a < b.length) :
    (setCellN b a bn v).getD a [] = (b.getD a []).set bn v := by
  simp only [setCellN, List.getD_eq_getElem?_getD, List.getElem?_set, if_pos rfl, if_pos h]
  rfl

theorem rowlen_setCellN (b : Grid) (a bn : Nat) (v : Option Char) (i : Nat) :
    ((setCellN b a bn v).getD i []).length = (b.getD i []).length := by
  by_cases h : i = a
  · subst h
    by_cases hi : i < b.length
    · rw [getD_setCellN_self _ _ _ _ hi, List.length_set]
    · have h1 : (setCellN b i bn v).getD i [] = [] := by
        simp only [setCellN, List.getD_eq_getElem?_getD, List.getElem?_set, if_pos rfl,
          if_neg hi]
        rfl
      have h2 : b.getD i [] = [] := by
        rw [List.getD_eq_getElem?_getD, List.getElem?_eq_none (Nat.le_of_not_lt hi)]
        rfl
      rw [h1, h2]
  · rw [getD_setCellN_ne _ _ _ _ _ h]

theorem cellN_setCellN_self (b : Grid) (a bn : Nat) (v : Option Char)
    (h1 : a < b.length) (h2 : bn < (b.getD a []).length) :
    cellN (setCellN b a bn v) a bn = v := by
  rw [cellN, getD_setCellN_self _ _ _ _ h1]
  rw [List.getD_eq_getElem?_getD, List.getElem?_set, if_pos rfl, if_pos h2]
  rfl

theorem cellN_setCellN_ne (b : Grid) (a bn : Nat) (v : Option Char) (i j : Nat)
    (h : ¬(i = a ∧ j = bn)) :
    cellN (setCellN b a bn v) i j = cellN b i j := by
  by_cases hia : i = a
  · subst hia
    have hj : j ≠ bn := fun hh => h ⟨rfl, hh⟩
    by_cases hi : i < b.length
    · rw [cellN, cellN, getD_setCellN_self _ _ _ _ hi]
      simp only [List.getD_eq_getElem?_getD]
      rw [List.getElem?_set_ne (fun hh => hj hh.symm)]
    · have h1 : (setCellN b i bn v).getD i [] = [] := by
        simp only [setCellN, List.getD_eq_getElem?_getD, List.getElem?_set, if_pos rfl,
          if_neg hi]
        rfl
      have h2 : b.getD i [] = [] := by
        rw [List.getD_eq_getElem?_getD, List.getElem?_eq_none (Nat.le_of_not_lt hi)]
        rfl
      rw [cellN, cellN, h1, h2]
  · rw [cellN, cellN, getD_setCellN_ne _ _ _ _ _ hia]

/-- Two grids with the same shape and the same cells are equal. -/
theorem grid_ext (b1 b2 : Grid) (hlen : b1.length = b2.length)
    (hrow : ∀ i, (b1.getD i []).length = (b2.getD i []).length)
    (hcell : ∀ i j, cellN b1 i j = cellN b2 i j) : b1 = b2 := by
  have k1 : ∀ (bb : Grid) (n : Nat), n < bb.length → bb[n]? = some (bb.getD n []) := by
    intro bb n hnn
    rw [List.getElem?_eq_getElem hnn, getD_eq_getElem _ _ _ hnn]
  have k2 : ∀ (l : List (Option Char)) (j : Nat), j < l.length →
      l[j]? = some (l.getD j none) := by
    intro l j hj
    rw [List.getElem?_eq_getElem hj, List.getD_eq_getElem?_getD,
      List.getElem?_eq_getElem hj]
    rfl
  apply List.ext_getElem?
  intro n
  by_cases hn : n < b1.length
  · rw [k1 b1 n hn, k1 b2 n (by omega)]
    congr 1
    apply List.ext_getElem?
    intro j
    by_cases hj : j < (b1.getD n []).length
    · rw [k2 _ _ hj, k2 _ _ (by rw [← hrow n]; exact hj)]
      exact congrArg some (hcell n j)
    · rw [List.getElem?_eq_none (Nat.le_of_not_lt hj),
        List.getElem?_eq_none (by rw [← hrow n]; omega)]
  · rw [List.getElem?_eq_none (by omega), List.getElem?_eq_none (by omega)]

theorem undo_restore (lp : List (Int × Int)) :
    ∀ (bd B0 : Grid),
      bd.length = B0.length →
      (∀ i, (bd.getD i []).length = (B0.getD i []).length) →
      (∀ p ∈ lp, ∃ a b2 : Nat, p = ((a : Int), (b2 : Int)) ∧ a < B0.length ∧
          b2 < (B0.getD a []).length ∧ cellN B0 a b2 = none) →
      (∀ a b2 : Nat, ((a : Int), (b2 : Int)) ∉ lp → cellN bd a b2 = cellN B0 a b2) →
      lp.Nodup →
      lp.foldlM (fun g p => pySet2 g p.1 p.2 none) bd = some B0 := by
  induction lp with
  | nil =>
      intro bd B0 hlen hrow hmem hcell _
      simp only [List.foldlM_nil]
      exact congrArg some (grid_ext bd B0 hlen hrow (fun i j => hcell i j (by simp)))
  | cons p lp' ih =>
      intro bd B0 hlen hrow hmem hcell hnodup
      obtain ⟨a, b2, hp, ha, hb2, hcell0⟩ := hmem p (by simp)
      subst hp
      have hbd1 : pySet2 bd (a : Int) (b2 : Int) none = some (setCellN bd a b2 none) :=
        pySet2_natCast bd a b2 none (by omega) (by rw [hrow]; exact hb2)
      rw [List.foldlM_cons]
      refine Option.bind_eq_some.mpr ⟨setCellN bd a b2 none, hbd1, ?_⟩
      have hmemlp : ((a : Int), (b2 : Int)) ∉ lp' := (List.nodup_cons.mp hnodup).1
      refine ih (setCellN bd a b2 none) B0 ?_ ?_ ?_ ?_ (List.nodup_cons.mp hnodup).2
      · rw [length_setCellN]; exact hlen
      · intro i; rw [rowlen_setCellN]; exact hrow i
      · intro q hq; exact hmem q (by simp [hq])
      · intro i j hij
        by_cases hsame : i = a ∧ j = b2
        · obtain ⟨h1, h2⟩ := hsame
          subst h1; subst h2
          rw [cellN_setCellN_self bd i j none (by omega) (by rw [hrow]; exact hb2)]
          exact hcell0.symm
        · rw [cellN_setCellN_ne bd a b2 none i j hsame]
          refine hcell i j ?_
          intro hc
          rcases List.mem_cons.mp hc with h1 | h1
          · apply hsame
            have h2 : (i : Int) = (a : Int) ∧ (j : Int) = (b2 : Int) := by
              exact ⟨congrArg Prod.fst h1, congrArg Prod.snd h1⟩
            exact ⟨by exact_mod_cast h2.1, by exact_mod_cast h2.2⟩
          · exact hij h1


theorem headD_eq_getD (l : List α) (d : α) : l.headD d = l.getD 0 d := by
  cases l <;> rfl

theorem isValidCoord_congr (b1 b2 : Grid) (hlen : b1.length = b2.length)
    (hrow : ∀ i, (b1.getD i []).length = (b2.getD i []).length) (r c : Int) :
    isValidCoord b1 r c = isValidCoord b2 r c := by
  unfold isValidCoord
  rw [headD_eq_getD, headD_eq_getD, hlen, hrow 0]

theorem posAt_zero (r c : Int) (dir : Dir) : posAt r c dir 0 = (r, c) := by
  cases dir <;> simp [posAt]

theorem posAt_inj (r c : Int) (dir : Dir) (j j' : Nat)
    (h : posAt r c dir j = posAt r c dir j') : j = j' := by
  cases dir <;>
    (simp only [posAt, Prod.mk.injEq] at h; omega)

theorem posAt_down_fst (r c : Int) (k : Nat) : (posAt r c .DOWN k).1 = r + k := rfl

theorem posAt_down_succ (r c : Int) (k : Nat) :
    posAt r c .DOWN (k + 1) = ((posAt r c .DOWN k).1 + 1, (posAt r c .DOWN k).2) := by
  simp only [posAt, Prod.mk.injEq]
  refine ⟨?_, trivial⟩
  push_cast
  ring

theorem posAt_right_succ (r c : Int) (k : Nat) :
    posAt r c .RIGHT (k + 1) = ((posAt r c .RIGHT k).1, (posAt r c .RIGHT k).2 + 1) := by
  simp only [posAt, Prod.mk.injEq]
  refine ⟨trivial, ?_⟩
  push_cast
  ring

theorem pyCell_natCast (b : Grid) (a bn : Nat) :
    pyCell b (a : Int) (bn : Int) = (b.get? a).bind fun row => row.get? bn := by
  unfold pyCell
  rw [pyIdx_natCast]
  cases h : b.get? a with
  | none => rfl
  | some row => exact pyIdx_natCast row bn

/-- `pyCell` agrees on two grids of the same shape at a cell where they
agree (natural coordinates). -/
theorem pyCell_congr_cell (b1 b2 : Grid) (a bn : Nat)
    (hlen : b1.length = b2.length)
    (hrow : ∀ i, (b1.getD i []).length = (b2.getD i []).length)
    (hc : cellN b1 a bn = cellN b2 a bn) :
    pyCell b1 (a : Int) (bn : Int) = pyCell b2 (a : Int) (bn : Int) := by
  by_cases ha : a < b1.length
  · by_cases hb : bn < (b1.getD a []).length
    · rw [pyCell_eq_cellN b1 a bn ha hb, pyCell_eq_cellN b2 a bn (by omega) (by rw [← hrow a]; exact hb), hc]
    · have e1 : pyCell b1 (a : Int) (bn : Int) = none := by
        rw [pyCell_natCast]
        rw [List.get?_eq_getElem?, List.getElem?_eq_getElem ha]
        simp only [Option.some_bind]
        rw [List.get?_eq_getElem?, List.getElem?_eq_none]
        rw [← getD_eq_getElem b1 a [] ha]
        omega
      have e2 : pyCell b2 (a : Int) (bn : Int) = none := by
        rw [pyCell_natCast]
        rw [List.get?_eq_getElem?, List.getElem?_eq_getElem (show a < b2.length by omega)]
        simp only [Option.some_bind]
        rw [List.get?_eq_getElem?, List.getElem?_eq_none]
        rw [← getD_eq_getElem b2 a [] (by omega)]
        rw [← hrow a]
        omega
      rw [e1, e2]
  · have e1 : pyCell b1 (a : Int) (bn : Int) = none := by
      rw [pyCell_natCast, List.get?_eq_none.mpr (by omega)]
      rfl
    have e2 : pyCell b2 (a : Int) (bn : Int) = none := by
      rw [pyCell_natCast, List.get?_eq_none.mpr (by omega)]
      rfl
    rw [e1, e2]

/-- `occAt` agrees on two grids of the same shape at a cell where they
agree (integer coordinates; invalid coordinates are `false` on both). -/
theorem occAt_congr_cell (b1 b2 : Grid) (r c : Int)
    (hlen : b1.length = b2.length)
    (hrow : ∀ i, (b1.getD i []).length = (b2.getD i []).length)
    (hc : ∀ a bn : Nat, (a : Int) = r → (bn : Int) = c → cellN b1 a bn = cellN b2 a bn) :
    occAt b1 r c = occAt b2 r c := by
  unfold occAt
  rw [isValidCoord_congr b1 b2 hlen hrow]
  by_cases hv : isValidCoord b2 r c = true
  · rw [hv]
    have hr0 : 0 ≤ r := by
      unfold isValidCoord at hv
      simp only [Bool.and_eq_true, decide_eq_true_eq] at hv
      exact hv.1.1
    have hc0 : 0 ≤ c := by
      unfold isValidCoord at hv
      simp only [Bool.and_eq_true, decide_eq_true_eq] at hv
      exact hv.2.1
    have hr' : r = ((r.toNat : Nat) : Int) := (Int.toNat_of_nonneg hr0).symm
    have hc' : c = ((c.toNat : Nat) : Int) := (Int.toNat_of_nonneg hc0).symm
    rw [hr', hc']
    rw [pyCell_congr_cell b1 b2 r.toNat c.toNat hlen hrow
      (hc r.toNat c.toNat (by omega) (by omega))]
  · simp only [Bool.not_eq_true] at hv
    rw [hv]
    simp


/-- `isValidCoord` characterised. -/
theorem isValidCoord_iff (b : Grid) (r c : Int) :
    isValidCoord b r c = true ↔
      0 ≤ r ∧ r < (b.length : Int) ∧ 0 ≤ c ∧ c < ((b.getD 0 []).length : Int) := by
  unfold isValidCoord
  rw [headD_eq_getD]
  simp only [Bool.and_eq_true, decide_eq_true_eq]
  tauto

/-- `cellB` at natural coordinates is the total cell read. -/
theorem cellB_natCast (b : Grid) (a bn : Nat) :
    cellB b (a : Int) (bn : Int) = cellN b a bn := by
  unfold cellB
  rw [pyCell_natCast]
  by_cases ha : a < b.length
  · rw [List.get?_eq_getElem?, List.getElem?_eq_getElem ha]
    simp only [Option.some_bind]
    by_cases hb : bn < b[a].length
    · rw [List.get?_eq_getElem?, List.getElem?_eq_getElem hb]
      rw [cellN, getD_eq_getElem _ _ _ ha, getD_eq_getElem _ _ _ hb]
      rfl
    · rw [List.get?_eq_none.mpr (by omega)]
      rw [cellN, getD_eq_getElem _ _ _ ha]
      rw [List.getD_eq_getElem?_getD, List.getElem?_eq_none (by omega)]
      try rfl
  · rw [List.get?_eq_none.mpr (by omega)]
    rw [cellN]
    rw [List.getD_eq_getElem?_getD (l := b), List.getElem?_eq_none (by omega)]
    try rfl

/-- `occAt` unfolded through `cellB`. -/
theorem occAt_eq (b : Grid) (r c : Int) :
    occAt b r c = (isValidCoord b r c && (cellB b r c).isSome) := rfl

/-- The Boolean value computed by `_is_touching_word` for a `DOWN` play. -/
theorem isTouchingWord_val_down (b : Grid) (lp : List (Int × Int)) (r c : Int)
    (cur : Option Char) (hcur : pyCell b r c = some cur) (tv : Bool)
    (htv : isTouchingWord b lp r c .DOWN = some tv) :
    tv = (cur.isSome || (occAt b r (c - 1) || occAt b r (c + 1)) ||
      (occAt b (r - 1) c && lp.isEmpty) || occAt b (r + 1) c) := by
  unfold isTouchingWord at htv
  obtain ⟨cur2, hcur2, htv2⟩ := Option.bind_eq_some.mp htv
  rw [hcur] at hcur2
  injection hcur2 with hcur3
  subst hcur3
  simp only at htv2
  split_ifs at htv2 with h1 h2 h3 h4 <;>
    simp only [pure, Option.some.injEq] at htv2 <;>
    subst htv2 <;> simp_all

/-- The Boolean value computed by `_is_touching_word` for a `RIGHT` play. -/
theorem isTouchingWord_val_right (b : Grid) (lp : List (Int × Int)) (r c : Int)
    (cur : Option Char) (hcur : pyCell b r c = some cur) (tv : Bool)
    (htv : isTouchingWord b lp r c .RIGHT = some tv) :
    tv = (cur.isSome || (occAt b (r - 1) c || occAt b (r + 1) c) ||
      (occAt b r (c - 1) && lp.isEmpty) || occAt b r (c + 1)) := by
  unfold isTouchingWord at htv
  obtain ⟨cur2, hcur2, htv2⟩ := Option.bind_eq_some.mp htv
  rw [hcur] at hcur2
  injection hcur2 with hcur3
  subst hcur3
  simp only at htv2
  split_ifs at htv2 with h1 h2 h3 h4 <;>
    simp only [pure, Option.some.injEq] at htv2 <;>
    subst htv2 <;> simp_all

theorem forall_lt_succ (k : Nat) (P : Nat → Prop) :
    (∀ j, j < k + 1 → P j) ↔ (∀ j, j < k → P j) ∧ P k := by
  constructor
  · intro h
    exact ⟨fun j hj => h j (by omega), h k (by omega)⟩
  · rintro ⟨h1, h2⟩ j hj
    rcases Nat.lt_succ_iff_lt_or_eq.mp hj with h3 | h3
    · exact h1 j h3
    · rw [h3]; exact h2

theorem exists_lt_succ (k : Nat) (P : Nat → Prop) :
    (∃ j, j < k + 1 ∧ P j) ↔ (∃ j, j < k ∧ P j) ∨ P k := by
  constructor
  · rintro ⟨j, hj, hp⟩
    rcases Nat.lt_succ_iff_lt_or_eq.mp hj with h3 | h3
    · exact Or.inl ⟨j, h3, hp⟩
    · rw [h3] at hp; exact Or.inr hp
  · rintro (⟨j, hj, hp⟩ | hp)
    · exact ⟨j, by omega, hp⟩
    · exact ⟨k, by omega, hp⟩

/-- A footprint position at or beyond `k` is not among the first `k`
recorded writes. -/
theorem posAt_not_mem_lp (B0 : Grid) (wu : List Char) (r c cr cc : Int) (dir : Dir)
    (firstPlay : Bool) (k : Nat) (st : SWState)
    (hinv : SWInv B0 wu r c cr cc dir firstPlay k st) (m : Nat) (hm : k ≤ m) :
    posAt r c dir m ∉ st.lp := by
  intro hmem
  obtain ⟨j, hj, hpj, _⟩ := hinv.hlp _ hmem
  have := posAt_inj r c dir m j hpj
  omega


/-- `occAt` is `false` outside valid coordinates and implies validity. -/
theorem occAt_true_valid (b : Grid) (r c : Int) (h : occAt b r c = true) :
    isValidCoord b r c = true := by
  rw [occAt_eq, Bool.and_eq_true] at h
  exact h.1

/-- Core correctness of the touching check at letter `k`: given that no
earlier letter already touched, the Boolean computed by
`_is_touching_word` on the partially written board agrees with
"letter `k` overlaps or neighbours an occupied cell of the initial
board". -/
theorem touch_semantics (B0 : Grid) (wu : List Char) (r c cr cc : Int) (dir : Dir)
    (firstPlay : Bool) (k : Nat) (st : SWState)
    (hinv : SWInv B0 wu r c cr cc dir firstPlay k st)
    (hv : isValidCoord B0 (posAt r c dir k).1 (posAt r c dir k).2 = true)
    (cur : Option Char)
    (hcurst : pyCell st.bd (posAt r c dir k).1 (posAt r c dir k).2 = some cur)
    (hcurB0 : cellB B0 (posAt r c dir k).1 (posAt r c dir k).2 = cur)
    (hnoprev : ¬ ∃ j, j < k ∧ touchedAt B0 r c dir j)
    (tv : Bool)
    (htv : isTouchingWord st.bd st.lp (posAt r c dir k).1 (posAt r c dir k).2 dir = some tv) :
    (tv = true ↔ touchedAt B0 r c dir k) := by
  have hocc_eq : ∀ q : Int × Int, q ∉ st.lp →
      occAt st.bd q.1 q.2 = occAt B0 q.1 q.2 := by
    intro q hq
    apply occAt_congr_cell _ _ _ _ hinv.hlen hinv.hrow
    intro a bn ha hb
    apply hinv.hcells
    intro hmem
    apply hq
    have : ((a : Int), (bn : Int)) = q := Prod.ext_iff.mpr ⟨ha, hb⟩
    rwa [this] at hmem
  have hcur_occ : occAt B0 (posAt r c dir k).1 (posAt r c dir k).2 = cur.isSome := by
    rw [occAt_eq, hv, hcurB0, Bool.true_and]
  have hafter_nin : posAt r c dir (k + 1) ∉ st.lp :=
    posAt_not_mem_lp B0 wu r c cr cc dir firstPlay k st hinv (k + 1) (by omega)
  have hlp_empty_of_k0 : k = 0 → st.lp = [] := by
    intro hk0
    cases hlpc : st.lp with
    | nil => rfl
    | cons p rest =>
        obtain ⟨j, hj, _⟩ := hinv.hlp p (by rw [hlpc]; simp)
        omega
  cases dir with
  | DOWN =>
      have hval := isTouchingWord_val_down st.bd st.lp _ _ cur hcurst tv htv
      have hq1 : ((posAt r c .DOWN k).1, (posAt r c .DOWN k).2 - 1) ∉ st.lp := by
        intro hmem
        obtain ⟨j, hj, hpj, _⟩ := hinv.hlp _ hmem
        simp only [posAt, Prod.mk.injEq] at hpj
        omega
      have hq2 : ((posAt r c .DOWN k).1, (posAt r c .DOWN k).2 + 1) ∉ st.lp := by
        intro hmem
        obtain ⟨j, hj, hpj, _⟩ := hinv.hlp _ hmem
        simp only [posAt, Prod.mk.injEq] at hpj
        omega
      have hafter : ((posAt r c .DOWN k).1 + 1, (posAt r c .DOWN k).2) = posAt r c .DOWN (k + 1) :=
        (posAt_down_succ r c k).symm
      rw [hval]
      rw [show occAt st.bd (posAt r c .DOWN k).1 ((posAt r c .DOWN k).2 - 1) =
          occAt B0 (posAt r c .DOWN k).1 ((posAt r c .DOWN k).2 - 1) from
        hocc_eq (((posAt r c .DOWN k).1, (posAt r c .DOWN k).2 - 1)) hq1]
      rw [show occAt st.bd (posAt r c .DOWN k).1 ((posAt r c .DOWN k).2 + 1) =
          occAt B0 (posAt r c .DOWN k).1 ((posAt r c .DOWN k).2 + 1) from
        hocc_eq (((posAt r c .DOWN k).1, (posAt r c .DOWN k).2 + 1)) hq2]
      rw [show occAt st.bd ((posAt r c .DOWN k).1 + 1) (posAt r c .DOWN k).2 =
          occAt B0 ((posAt r c .DOWN k).1 + 1) (posAt r c .DOWN k).2 from
        hocc_eq ((((posAt r c .DOWN k).1 + 1), (posAt r c .DOWN k).2))
          (by rw [hafter]; exact hafter_nin)]
      by_cases hemp : st.lp = []
      · have hbefore : occAt st.bd ((posAt r c .DOWN k).1 - 1) (posAt r c .DOWN k).2 =
            occAt B0 ((posAt r c .DOWN k).1 - 1) (posAt r c .DOWN k).2 :=
          hocc_eq ((((posAt r c .DOWN k).1 - 1), (posAt r c .DOWN k).2)) (by rw [hemp]; simp)
        rw [hbefore, hemp]
        simp only [List.isEmpty_nil, Bool.and_true]
        rw [← hcur_occ]
        unfold touchedAt adjOrOverlap
        simp only [hv, true_and, Bool.or_eq_true]
        tauto
      · have hlpe : st.lp.isEmpty = false := by
          cases hlpc : st.lp with
          | nil => exact absurd hlpc hemp
          | cons p rest => rfl
        rw [hlpe]
        simp only [Bool.and_false, Bool.or_false]
        rw [← hcur_occ]
        unfold touchedAt adjOrOverlap
        simp only [hv, true_and, Bool.or_eq_true]
        constructor
        · intro h
          tauto
        · intro h
          rcases h with h | h | h | h | h
          · tauto
          · -- the "before" neighbour: an earlier letter already overlapped it
            exfalso
            have hk0 : k ≠ 0 := by
              intro hk0
              exact hemp (hlp_empty_of_k0 hk0)
            have hkm : (posAt r c .DOWN k).1 - 1 = (posAt r c .DOWN (k - 1)).1 := by
              simp only [posAt]
              omega
            have hkc : (posAt r c .DOWN k).2 = (posAt r c .DOWN (k - 1)).2 := rfl
            rw [hkm, hkc] at h
            apply hnoprev
            refine ⟨k - 1, by omega, occAt_true_valid _ _ _ h, Or.inl h⟩
          · tauto
          · tauto
          · tauto
  | RIGHT =>
      have hval := isTouchingWord_val_right st.bd st.lp _ _ cur hcurst tv htv
      have hq1 : ((posAt r c .RIGHT k).1 - 1, (posAt r c .RIGHT k).2) ∉ st.lp := by
        intro hmem
        obtain ⟨j, hj, hpj, _⟩ := hinv.hlp _ hmem
        simp only [posAt, Prod.mk.injEq] at hpj
        omega
      have hq2 : ((posAt r c .RIGHT k).1 + 1, (posAt r c .RIGHT k).2) ∉ st.lp := by
        intro hmem
        obtain ⟨j, hj, hpj, _⟩ := hinv.hlp _ hmem
        simp only [posAt, Prod.mk.injEq] at hpj
        omega
      have hafter : ((posAt r c .RIGHT k).1, (posAt r c .RIGHT k).2 + 1) = posAt r c .RIGHT (k + 1) :=
        (posAt_right_succ r c k).symm
      rw [hval]
      rw [show occAt st.bd ((posAt r c .RIGHT k).1 - 1) (posAt r c .RIGHT k).2 =
          occAt B0 ((posAt r c .RIGHT k).1 - 1) (posAt r c .RIGHT k).2 from
        hocc_eq ((((posAt r c .RIGHT k).1 - 1), (posAt r c .RIGHT k).2)) hq1]
      rw [show occAt st.bd ((posAt r c .RIGHT k).1 + 1) (posAt r c .RIGHT k).2 =
          occAt B0 ((posAt r c .RIGHT k).1 + 1) (posAt r c .RIGHT k).2 from
        hocc_eq ((((posAt r c .RIGHT k).1 + 1), (posAt r c .RIGHT k).2)) hq2]
      rw [show occAt st.bd (posAt r c .RIGHT k).1 ((posAt r c .RIGHT k).2 + 1) =
          occAt B0 (posAt r c .RIGHT k).1 ((posAt r c .RIGHT k).2 + 1) from
        hocc_eq (((posAt r c .RIGHT k).1, ((posAt r c .RIGHT k).2 + 1)))
          (by rw [hafter]; exact hafter_nin)]
      by_cases hemp : st.lp = []
      · have hbefore : occAt st.bd (posAt r c .RIGHT k).1 ((posAt r c .RIGHT k).2 - 1) =
            occAt B0 (posAt r c .RIGHT k).1 ((posAt r c .RIGHT k).2 - 1) :=
          hocc_eq (((posAt r c .RIGHT k).1, ((posAt r c .RIGHT k).2 - 1))) (by rw [hemp]; simp)
        rw [hbefore, hemp]
        simp only [List.isEmpty_nil, Bool.and_true]
        rw [← hcur_occ]
        unfold touchedAt adjOrOverlap
        simp only [hv, true_and, Bool.or_eq_true]
        tauto
      · have hlpe : st.lp.isEmpty = false := by
          cases hlpc : st.lp with
          | nil => exact absurd hlpc hemp
          | cons p rest => rfl
        rw [hlpe]
        simp only [Bool.and_false, Bool.or_false]
        rw [← hcur_occ]
        unfold touchedAt adjOrOverlap
        simp only [hv, true_and, Bool.or_eq_true]
        constructor
        · intro h
          tauto
        · intro h
          rcases h with h | h | h | h | h
          · tauto
          · tauto
          · tauto
          · exfalso
            have hk0 : k ≠ 0 := by
              intro hk0
              exact hemp (hlp_empty_of_k0 hk0)
            have hkm : (posAt r c .RIGHT k).2 - 1 = (posAt r c .RIGHT (k - 1)).2 := by
              simp only [posAt]
              omega
            have hkc : (posAt r c .RIGHT k).1 = (posAt r c .RIGHT (k - 1)).1 := rfl
            rw [hkm, hkc] at h
            apply hnoprev
            refine ⟨k - 1, by omega, occAt_true_valid _ _ _ h, Or.inl h⟩
          · tauto


/-- One `set_word` iteration preserves the loop invariant. -/
theorem step_spec (B0 : Grid) (wu : List Char) (r c cr cc : Int) (dir : Dir)
    (firstPlay : Bool) (mults : MGrid) (scoring : List Int) (k : Nat)
    (st st' : SWState)
    (hinv : SWInv B0 wu r c cr cc dir firstPlay k st)
    (h : setWordStep mults scoring firstPlay cr cc dir (wu.getD k ' ')
        (posAt r c dir k).1 (posAt r c dir k).2 st = some st') :
    SWInv B0 wu r c cr cc dir firstPlay (k + 1) st' := by
  obtain ⟨hlen, hrow, hlp, hcells, hnd, hvalid, hcenter, htouchT, htouchF⟩ := hinv
  have hinv' : SWInv B0 wu r c cr cc dir firstPlay k st :=
    ⟨hlen, hrow, hlp, hcells, hnd, hvalid, hcenter, htouchT, htouchF⟩
  unfold setWordStep at h
  rw [isValidCoord_congr st.bd B0 hlen hrow] at h
  by_cases hv : isValidCoord B0 (posAt r c dir k).1 (posAt r c dir k).2 = true
  case neg =>
    rw [if_neg hv] at h
    simp only [pure, Option.some.injEq] at h
    subst h
    have hnostep : ¬ stepOK B0 wu r c dir k := fun hs => hv hs.1
    have hnotouch : ¬ touchedAt B0 r c dir k := fun ht => hv ht.1
    have hnocenter : ¬ centerAt B0 r c cr cc dir k := fun hc => hv hc.1
    refine ⟨hlen, hrow, ?_, hcells, hnd, ?_, ?_, htouchT, ?_⟩
    · intro p hp
      obtain ⟨j, hj, hrest⟩ := hlp p hp
      exact ⟨j, by omega, hrest⟩
    · simp only [Bool.false_eq_true, false_iff]
      rw [forall_lt_succ]
      tauto
    · rw [hcenter]
      constructor
      · rintro ⟨hfp, j, hj, hc⟩
        exact ⟨hfp, j, by omega, hc⟩
      · rintro ⟨hfp, j, hj, hc⟩
        rcases Nat.lt_succ_iff_lt_or_eq.mp hj with h3 | h3
        · exact ⟨hfp, j, h3, hc⟩
        · subst h3; exact absurd hc hnocenter
    · intro hfp
      rw [htouchF hfp, exists_lt_succ]
      constructor
      · intro hh
        exact Or.inl hh
      · rintro (hh | hh)
        · exact hh
        · exact absurd hh hnotouch
  case pos =>
    rw [if_pos hv] at h
    obtain ⟨tv, htv, h⟩ := Option.bind_eq_some.mp h
    obtain ⟨cur, hcur, h⟩ := Option.bind_eq_some.mp h
    -- coordinates as naturals
    have hvv := (isValidCoord_iff B0 _ _).mp hv
    obtain ⟨hr0, hrlt, hc0, hclt⟩ := hvv
    have hra : (posAt r c dir k).1 = (((posAt r c dir k).1.toNat : Nat) : Int) :=
      (Int.toNat_of_nonneg hr0).symm
    have hcb : (posAt r c dir k).2 = (((posAt r c dir k).2.toNat : Nat) : Int) :=
      (Int.toNat_of_nonneg hc0).symm
    set a : Nat := (posAt r c dir k).1.toNat with hadef
    set bn : Nat := (posAt r c dir k).2.toNat with hbndef
    have hnotin : posAt r c dir k ∉ st.lp :=
      posAt_not_mem_lp B0 wu r c cr cc dir firstPlay k st hinv' k (by omega)
    have hnotin' : (((a : Nat) : Int), ((bn : Nat) : Int)) ∉ st.lp := by
      rw [← hra, ← hcb]
      intro hmem
      exact hnotin (by
        have : ((posAt r c dir k).1, (posAt r c dir k).2) = posAt r c dir k := rfl
        rwa [this] at hmem)
    have hcur2 := hcur
    rw [hra, hcb] at hcur2
    obtain ⟨ha_bd, hb_bd, hcur_eq⟩ := pyCell_bounds st.bd a bn cur hcur2
    have hcellsk : cellN st.bd a bn = cellN B0 a bn := hcells a bn hnotin'
    have hcurB0 : cellB B0 (posAt r c dir k).1 (posAt r c dir k).2 = cur := by
      rw [hra, hcb, cellB_natCast, ← hcellsk, ← hcur_eq]
    -- the touching flag after this step
    have htv_facts :
        (firstPlay = true → tv = false) ∧
        (firstPlay = false → (tv = true ↔ ∃ j, j < k + 1 ∧ touchedAt B0 r c dir j)) := by
      unfold touchCheck at htv
      by_cases hguard : st.touching = false ∧ firstPlay = false
      · rw [if_pos hguard] at htv
        have hnoprev : ¬ ∃ j, j < k ∧ touchedAt B0 r c dir j := by
          rw [← htouchF hguard.2]
          rw [hguard.1]
          simp
        have hiff := touch_semantics B0 wu r c cr cc dir firstPlay k st hinv' hv cur
          hcur hcurB0 hnoprev tv htv
        refine ⟨fun hfp => absurd hfp (by rw [hguard.2]; simp), fun _ => ?_⟩
        rw [hiff, exists_lt_succ]
        constructor
        · intro hh
          exact Or.inr hh
        · rintro (hh | hh)
          · exact absurd hh hnoprev
          · exact hh
      · rw [if_neg hguard] at htv
        simp only [pure, Option.some.injEq] at htv
        subst htv
        constructor
        · intro hfp
          exact htouchT hfp
        · intro hfp
          have hst : st.touching = true := by
            rcases Bool.eq_false_or_eq_true st.touching with hh | hh
            · exact hh
            · exact absurd ⟨hh, hfp⟩ hguard
          rw [exists_lt_succ]
          constructor
          · intro _
            exact Or.inl ((htouchF hfp).mp hst)
          · intro _
            exact hst
      
    -- the centre flag after this step
    have hcent_fact : ∀ stc : Bool,
        (stc = if firstPlay = true ∧ (posAt r c dir k).1 = cr ∧ (posAt r c dir k).2 = cc
          then true else st.center) →
        (stc = true ↔ firstPlay = true ∧ ∃ j, j < k + 1 ∧ centerAt B0 r c cr cc dir j) := by
      intro stc hstc
      by_cases hcond : firstPlay = true ∧ (posAt r c dir k).1 = cr ∧ (posAt r c dir k).2 = cc
      · rw [if_pos hcond] at hstc
        subst hstc
        simp only [true_iff]
        refine ⟨hcond.1, k, by omega, hv, ?_⟩
        have h1 := hcond.2.1
        have h2 := hcond.2.2
        rw [Prod.ext_iff]
        exact ⟨h1, h2⟩
      · rw [if_neg hcond] at hstc
        subst hstc
        rw [hcenter]
        constructor
        · rintro ⟨hfp, j, hj, hcj⟩
          exact ⟨hfp, j, by omega, hcj⟩
        · rintro ⟨hfp, j, hj, hcj⟩
          rcases Nat.lt_succ_iff_lt_or_eq.mp hj with h3 | h3
          · exact ⟨hfp, j, h3, hcj⟩
          · exfalso
            subst h3
            apply hcond
            refine ⟨hfp, ?_, ?_⟩
            · rw [hcj.2]
            · rw [hcj.2]
      
    clear hcur2
    cases hcurcase : cur with
    | none =>
        rw [hcurcase] at h
        simp only at h
        obtain ⟨bd', hbd', h⟩ := Option.bind_eq_some.mp h
        obtain ⟨m, hm, h⟩ := Option.bind_eq_some.mp h
        obtain ⟨sc, hsc, h⟩ := Option.bind_eq_some.mp h
        obtain ⟨hp, hhp, h⟩ := Option.bind_eq_some.mp h
        obtain ⟨crx, hcrx, h⟩ := Option.bind_eq_some.mp h
        simp only [pure, Option.some.injEq] at h
        subst h
        -- the write is at the current coordinate
        have hbd'2 := hbd'
        rw [hra, hcb] at hbd'2
        rw [pySet2_natCast st.bd a bn (some (wu.getD k ' ')) ha_bd hb_bd] at hbd'2
        injection hbd'2 with hbd'eq
        have hcellB0k : cellN B0 a bn = none := by
          rw [← hcellsk, ← hcur_eq, hcurcase]
        have hstep : stepOK B0 wu r c dir k :=
          ⟨hv, Or.inl (by rw [hcurB0, hcurcase])⟩
        refine ⟨?_, ?_, ?_, ?_, ?_, ?_, hcent_fact _ rfl, fun hfp => htv_facts.1 hfp,
          fun hfp => htv_facts.2 hfp⟩
        · simp only
          rw [← hbd'eq, length_setCellN, hlen]
        · intro i
          simp only
          rw [← hbd'eq, rowlen_setCellN]
          exact hrow i
        · intro p hp2
          simp only at hp2
          rcases List.mem_append.mp hp2 with hmem | hmem
        
          · obtain ⟨j, hj, hrest⟩ := hlp p hmem
            exact ⟨j, by omega, hrest⟩
          · have hpk : p = ((posAt r c dir k).1, (posAt r c dir k).2) := by
              simpa using hmem
            refine ⟨k, by omega, by rw [hpk], a, bn, ?_, by omega, ?_, hcellB0k⟩
            · rw [hpk, Prod.ext_iff]
              exact ⟨hra, hcb⟩
            · rw [← hrow a]
              exact hb_bd
        · intro i j hij
          simp only at hij ⊢
          have hij_lp : ((i : Int), (j : Int)) ∉ st.lp := fun hm =>
            hij (List.mem_append.mpr (Or.inl hm))
          have hij_ne : ¬(i = a ∧ j = bn) := by
            rintro ⟨h1, h2⟩
            subst h1; subst h2
            apply hij
            refine List.mem_append.mpr (Or.inr ?_)
            simp only [List.mem_singleton, Prod.ext_iff]
            exact ⟨hra.symm, hcb.symm⟩
          rw [← hbd'eq, cellN_setCellN_ne st.bd a bn _ i j hij_ne]
          exact hcells i j hij_lp
        · simp only
          rw [List.nodup_append]
          refine ⟨hnd, List.nodup_singleton _, ?_⟩
          intro p hp2 hp3
          simp only [List.mem_singleton] at hp3
          subst hp3
          exact hnotin (by
            have hpk : ((posAt r c dir k).1, (posAt r c dir k).2) = posAt r c dir k := rfl
            rwa [hpk] at hp2)
        · simp only
          rw [hvalid, forall_lt_succ]
          tauto
    | some c2 =>
        rw [hcurcase] at h
        simp only at h
        have hcellB0k : cellB B0 (posAt r c dir k).1 (posAt r c dir k).2 = some c2 := by
          rw [hcurB0, hcurcase]
        by_cases hcc : c2 = wu.getD k ' '
        · rw [if_pos hcc] at h
          obtain ⟨sc, hsc, h⟩ := Option.bind_eq_some.mp h
          simp only [pure, Option.some.injEq] at h
          subst h
          have hstep : stepOK B0 wu r c dir k := ⟨hv, Or.inr (by rw [hcellB0k, hcc])⟩
          refine ⟨hlen, hrow, ?_, hcells, hnd, ?_, hcent_fact _ rfl,
            fun hfp => htv_facts.1 hfp, fun hfp => htv_facts.2 hfp⟩
          · intro p hp2
            obtain ⟨j, hj, hrest⟩ := hlp p hp2
            exact ⟨j, by omega, hrest⟩
          · show st.valid = true ↔ _
            rw [hvalid, forall_lt_succ]
            exact ⟨fun hh => ⟨hh, hstep⟩, fun hh => hh.1⟩
        · rw [if_neg hcc] at h
          simp only [pure, Option.some.injEq] at h
          subst h
          have hnostep : ¬ stepOK B0 wu r c dir k := by
            rintro ⟨_, hd | hd⟩
            · rw [hcellB0k] at hd; cases hd
            · rw [hcellB0k] at hd
              injection hd with hd2
              exact hcc hd2
          refine ⟨hlen, hrow, ?_, hcells, hnd, ?_, hcent_fact _ rfl,
            fun hfp => htv_facts.1 hfp, fun hfp => htv_facts.2 hfp⟩
          · intro p hp2
            obtain ⟨j, hj, hrest⟩ := hlp p hp2
            exact ⟨j, by omega, hrest⟩
          · simp only [Bool.false_eq_true, false_iff]
            rw [forall_lt_succ]
            tauto


/-- The whole `set_word` letter loop preserves the invariant from any
intermediate index to the end of the word. -/
theorem loop_spec (B0 : Grid) (wu : List Char) (r c cr cc : Int) (dir : Dir)
    (firstPlay : Bool) (mults : MGrid) (scoring : List Int) :
    ∀ (rest : List Char) (k : Nat) (st res : SWState),
      rest = wu.drop k → k ≤ wu.length →
      SWInv B0 wu r c cr cc dir firstPlay k st →
      setWordLoop mults scoring firstPlay cr cc dir rest (posAt r c dir k).1
        (posAt r c dir k).2 st = some res →
      SWInv B0 wu r c cr cc dir firstPlay wu.length res := by
  intro rest
  induction rest with
  | nil =>
      intro k st res hdrop hk hinv hloop
      have hklen : k = wu.length := by
        have := congrArg List.length hdrop
        simp only [List.length_nil, List.length_drop] at this
        omega
      subst hklen
      simp only [setWordLoop, pure, Option.some.injEq] at hloop
      rwa [← hloop]
  | cons ch rest' ih =>
      intro k st res hdrop hk hinv hloop
      have hk2 : k < wu.length := by
        by_contra hc
        rw [List.drop_eq_nil_of_le (by omega)] at hdrop
        cases hdrop
      have hdk : wu.drop k = ch :: rest' := hdrop.symm
      have hch : ch = wu.getD k ' ' := by
        have h0 : (wu.drop k)[0]? = wu[k]? := by
          rw [List.getElem?_drop]
          simp
        rw [hdk] at h0
        simp only [List.getElem?_cons_zero] at h0
        rw [List.getD_eq_getElem?_getD, ← h0]
        rfl
      have hrest' : rest' = wu.drop (k + 1) := by
        have h1 : wu.drop (k + 1) = (wu.drop k).drop 1 := by
          rw [List.drop_drop]
        rw [h1, hdk]
        rfl
      simp only [setWordLoop] at hloop
      obtain ⟨st1, hstep, hloop2⟩ := Option.bind_eq_some.mp hloop
      rw [hch] at hstep
      have hinv1 := step_spec B0 wu r c cr cc dir firstPlay mults scoring k st st1
        hinv hstep
      cases dir with
      | DOWN =>
          refine ih (k + 1) st1 res hrest' (by omega) hinv1 ?_
          rw [posAt_down_succ]
          exact hloop2
      | RIGHT =>
          refine ih (k + 1) st1 res hrest' (by omega) hinv1 ?_
          rw [posAt_right_succ]
          exact hloop2

/-- Full specification of `Board.set_word`'s flags: a completed call
yields a final state satisfying the invariant at the full word length,
with the result assembled from that state. -/
theorem setWord_spec (B : Board) (word : List Char) (r c : Int) (dir : Dir)
    (B' : Board) (total : Int) (acc : Bool)
    (h : setWord B word r c dir = some (B', total, acc)) :
    ∃ st : SWState,
      SWInv B.board (pyUpper word) r c (centerOf B.board).1 (centerOf B.board).2 dir
        (isEmptyG B.board) (pyUpper word).length st ∧
      B' = ⟨st.bd, B.multipliers, B.letterScoring, st.lp⟩ ∧
      total = st.score * st.totmul + st.cross ∧
      acc = (st.valid && (!(isEmptyG B.board) || st.center) &&
        ((isEmptyG B.board) || st.touching)) := by
  unfold setWord at h
  obtain ⟨r0, hr0, h⟩ := Option.bind_eq_some.mp h
  obtain ⟨st, hloop, h⟩ := Option.bind_eq_some.mp h
  simp only [pure, Option.some.injEq, Prod.mk.injEq] at h
  obtain ⟨hB', htotal, hacc⟩ := h
  have hcc : ((r0.length / 2 : Nat) : Int) = (centerOf B.board).2 := by
    have hb0 : B.board.headD [] = r0 := by
      have h0 : pyIdx B.board ((0 : Nat) : Int) = some r0 := by
        rw [Int.natCast_zero]
        exact hr0
      rw [pyIdx_natCast] at h0
      rw [headD_eq_getD, List.getD_eq_getElem?_getD, ← List.get?_eq_getElem?, h0]
      rfl
    rw [centerOf, hb0]
  have hcr : ((B.board.length / 2 : Nat) : Int) = (centerOf B.board).1 := rfl
  refine ⟨st, ?_, hB'.symm, htotal.symm, hacc.symm⟩
  have hinv0 : SWInv B.board (pyUpper word) r c (centerOf B.board).1
      (centerOf B.board).2 dir (isEmptyG B.board) 0
      ⟨B.board, [], true, false, false, 0, 0, 1⟩ := by
    refine ⟨rfl, fun i => rfl, ?_, fun a b2 _ => rfl, List.nodup_nil, ?_, ?_, ?_, ?_⟩
    · intro p hp
      cases hp
    · simp only [true_iff]
      intro j hj
      omega
    · simp only [Bool.false_eq_true, false_iff]
      rintro ⟨_, j, hj, _⟩
      omega
    · intro _
      rfl
    · intro _
      simp only [Bool.false_eq_true, false_iff]
      rintro ⟨j, hj, _⟩
      omega
  refine loop_spec B.board (pyUpper word) r c (centerOf B.board).1 (centerOf B.board).2
    dir (isEmptyG B.board) B.multipliers B.letterScoring (pyUpper word) 0
    ⟨B.board, [], true, false, false, 0, 0, 1⟩ st rfl (by omega) hinv0 ?_
  rw [show posAt r c dir 0 = (r, c) from posAt_zero r c dir]
  rw [hcr, hcc] at hloop
  exact hloop


/-- C1: a completed `set_word` call accepts the play (returns `True` as its
third component) exactly when every letter of the uppercased word lands
on-grid on an empty cell or on a matching tile, the first play of the game
covers the centre cell, and a later play overlaps or orthogonally touches
an existing tile. -/
theorem claim_C1 (B : Board) (word : List Char) (r c : Int) (dir : Dir)
    (res : Board × Int × Bool) (h : setWord B word r c dir = some res) :
    res.2.2 = true ↔ idealAccept B word r c dir := by
  obtain ⟨B1, total, acc⟩ := res
  obtain ⟨st, hinv, hB1, htot, hacc⟩ := setWord_spec B word r c dir B1 total acc h
  obtain ⟨hlen, hrow, hlp, hcells, hnd, hvalid, hcenter, htouchT, htouchF⟩ := hinv
  have hfoot : footprintOK B.board (pyUpper word) r c dir ↔ st.valid = true := by
    rw [hvalid]
    exact Iff.rfl
  show acc = true ↔ _
  rw [hacc]
  unfold idealAccept
  rcases Bool.eq_false_or_eq_true (isEmptyG B.board) with hEb | hEb
  · rw [hEb] at hcenter htouchT ⊢
    have ht0 : st.touching = false := htouchT rfl
    simp only [Bool.not_true, Bool.false_or, Bool.true_or, Bool.and_true,
      Bool.and_eq_true, eq_self_iff_true, true_implies, Bool.true_eq_false,
      false_implies, and_true, true_and] at hcenter ⊢
    constructor
    · rintro ⟨hv, hc⟩
      obtain ⟨j, hj, hca⟩ := hcenter.mp hc
      exact ⟨hfoot.mpr hv, j, hj, hca.2⟩
    · rintro ⟨hfo, j, hj, hpos⟩
      exact ⟨hfoot.mp hfo, hcenter.mpr ⟨j, hj, (hfo j hj).1, hpos⟩⟩
  · rw [hEb] at hcenter htouchF ⊢
    have ht := htouchF rfl
    simp only [Bool.not_false, Bool.true_or, Bool.and_true, Bool.false_or,
      Bool.and_eq_true, Bool.false_eq_true, false_implies, true_and,
      eq_self_iff_true, true_implies]
    constructor
    · rintro ⟨hv, htc⟩
      obtain ⟨j, hj, hta⟩ := ht.mp htc
      exact ⟨hfoot.mpr hv, j, hj, hta.2⟩
    · rintro ⟨hfo, j, hj, hadj⟩
      exact ⟨hfoot.mp hfo, ht.mpr ⟨j, hj, (hfo j hj).1, hadj⟩⟩

/-- Witness for C1: playing "A" through the centre of an empty 3×3 board
satisfies the legality condition, by applying `claim_C1` to the concrete
accepted call. -/
theorem claim_C1_witness : idealAccept emptyB3 ['A'] 1 1 .RIGHT :=
  (claim_C1 emptyB3 ['A'] 1 1 .RIGHT _ rfl).mp rfl

/-- C2: when a completed `set_word` call rejects the play, `play_word`
returns the `INVALID_PLAY` sentinel with the board grid identical to the
original, multipliers and letter scoring untouched and the play record
empty, and a subsequent `undo_play` is a no-op on that restored board. -/
theorem claim_C2 (B : Board) (word : List Char) (r c : Int) (dir : Dir)
    (B1 : Board) (sc : Int)
    (h : setWord B word r c dir = some (B1, sc, false)) :
    playWord B word r c dir =
      some (⟨B.board, B.multipliers, B.letterScoring, []⟩, INVALID_PLAY) ∧
    undoPlay ⟨B.board, B.multipliers, B.letterScoring, []⟩ =
      some ⟨B.board, B.multipliers, B.letterScoring, []⟩ := by
  obtain ⟨st, hinv, hB1, htot, hacc⟩ := setWord_spec B word r c dir B1 sc false h
  obtain ⟨hlen, hrow, hlp, hcells, hnd, _, _, _, _⟩ := hinv
  have hrestore : st.lp.foldlM (fun g p => pySet2 g p.1 p.2 none) st.bd =
      some B.board := by
    refine undo_restore st.lp st.bd B.board hlen hrow ?_ hcells hnd
    intro p hp
    obtain ⟨j, hj, hpos, a, b2, hpe, ha, hb2, hcn⟩ := hlp p hp
    exact ⟨a, b2, hpe, ha, hb2, hcn⟩
  have hundo : undoPlay ⟨st.bd, B.multipliers, B.letterScoring, st.lp⟩ =
      some ⟨B.board, B.multipliers, B.letterScoring, []⟩ := by
    show Bind.bind (st.lp.foldlM (fun g p => pySet2 g p.1 p.2 none) st.bd)
      (fun b2 => pure (⟨b2, B.multipliers, B.letterScoring, []⟩ : Board)) = _
    rw [hrestore]
    rfl
  constructor
  · have hpw : playWord B word r c dir = Bind.bind (undoPlay B1)
        (fun B2 => pure (B2, INVALID_PLAY)) := by
      unfold playWord
      rw [h]
      rfl
    rw [hpw, hB1, hundo]
    rfl
  · rfl

/-- Witness for C2: a floating play of "A" away from the only tile of a
3×3 board is rejected and fully rolled back, by applying `claim_C2` to the
concrete rejected call. -/
theorem claim_C2_witness :
    playWord bB3 ['A'] 1 1 .DOWN =
      some (⟨bB3.board, bB3.multipliers, bB3.letterScoring, []⟩, INVALID_PLAY) ∧
    undoPlay ⟨bB3.board, bB3.multipliers, bB3.letterScoring, []⟩ =
      some ⟨bB3.board, bB3.multipliers, bB3.letterScoring, []⟩ :=
  claim_C2 bB3 ['A'] 1 1 .DOWN _ _ rfl

end DictPy
